import Mathlib

/-!
Verification of the sonar `map` subsystem (classification and aggregation
engine, `sonar/map.py`) against its natural-language specification.

The Python code is shallowly embedded: Python `dict` / `defaultdict`
accumulators become association lists (`List (K × V)`) with the update
functions below, Python floats become `ℚ`, Python unbounded ints become
`Int`, aborting the run (`sys.exit`, uncaught exceptions such as
`ZeroDivisionError` or `ValueError`) becomes `Option.none`, and compiled
regular expressions become abstract matchers `List Char → Bool` ("does the
regex match starting at the head of this character list"), so that
`re.search` is the disjunction of the matcher over all suffixes.  The file
readers (`glob`, `csv`) are the I/O layer: `extract_and_map_data` here
consumes the already-parsed rows, and `datetime.datetime.today()` becomes
the explicit `today` argument.
-/

set_option maxRecDepth 2000

unseal Rat.add Rat.sub Rat.mul Rat.inv

namespace Sonar

/-! ### Association-list maps (embedding of `dict` / `defaultdict`) -/

/-- `dict` lookup returning `d` when the key is absent
(the read side of `defaultdict`). -/
def getD {K V : Type} [DecidableEq K] (m : List (K × V)) (k : K) (d : V) : V :=
  match m with
  | [] => d
  | (k', v) :: rest => if k = k' then v else getD rest k d

/-- `m[k] = f (m[k])` with default `d` when absent: update the first entry
with key `k` in place, or append a fresh entry (Python dicts keep insertion
order, so fresh keys go to the end). -/
def updD {K V : Type} [DecidableEq K] (m : List (K × V)) (k : K) (d : V) (f : V → V) :
    List (K × V) :=
  match m with
  | [] => [(k, f d)]
  | (k', v) :: rest => if k = k' then (k', f v) :: rest else (k', v) :: updD rest k d f

/-- `m[k] += v` on a `defaultdict(float)`. -/
def addTo {K : Type} [DecidableEq K] (m : List (K × ℚ)) (k : K) (v : ℚ) : List (K × ℚ) :=
  updD m k 0 (fun x => x + v)

/-- `m[k] += v` on a `defaultdict(int)`. -/
def addToInt {K : Type} [DecidableEq K] (m : List (K × Int)) (k : K) (v : Int) :
    List (K × Int) :=
  updD m k 0 (fun x => x + v)

/-- Sum of all values stored in the map (Python `sum(m.values())`). -/
def sumValues {K : Type} (m : List (K × ℚ)) : ℚ :=
  (m.map (fun p => p.2)).sum

/-- Remove the first entry with key `k` (proof device for summation over
distinct keys; not part of the source). -/
def eraseKey {K : Type} [DecidableEq K] (m : List (K × ℚ)) (k : K) : List (K × ℚ) :=
  match m with
  | [] => []
  | (k', v) :: rest => if k = k' then rest else (k', v) :: eraseKey rest k

/-- Sum of all values of an integer-valued map. -/
def sumValuesInt {K : Type} (m : List (K × Int)) : Int :=
  (m.map (fun p => p.2)).sum

/-! ### Classifier (`map_process`, `memoize_on_first_arg`) -/

/-- A compiled regular expression, abstracted as its anchored matcher:
`p chars = true` iff the regex matches starting at the head of `chars`. -/
def RePat : Type := List Char → Bool

/-- Helper for `reSearch`: try the matcher at every start position. -/
def reSearchAux (p : RePat) : List Char → Bool
  | [] => p []
  | c :: rest => p (c :: rest) || reSearchAux p rest

/-- `re.search(k, s) is not None`: the pattern matches at some start
position inside `s` (substring/regex search, not a full-string match). -/
def reSearch (p : RePat) (s : String) : Bool :=
  reSearchAux p s.toList

/-- The `for k, v in re_map` loop of `map_process`: label of the first
pattern that matches anywhere within `process`, if any. -/
def scanReMap (process : String) : List (RePat × String) → Option String
  | [] => none
  | (k, v) :: rest =>
    if reSearch k process then some v else scanReMap process rest

/-- `map_process` with the memoization decorator stripped: exact-match
table first (`string_map[process]`, with `KeyError` caught), then the
ordered pattern list, then `default_category`. -/
def map_process (process : String) (string_map : String → Option String)
    (re_map : List (RePat × String)) (default_category : String) : String :=
  match string_map process with
  | some v => v
  | none =>
    match scanReMap process re_map with
    | some v => v
    | none => default_category

/-- One run's classification cache (the `cache` dict of
`memoize_on_first_arg`). -/
def cacheLookup (cache : List (String × String)) (p : String) : Option String :=
  match cache with
  | [] => none
  | (k, v) :: rest => if p = k then some v else cacheLookup rest p

/-- The memoized `map_process`: the cache is keyed on the first argument
only; on a hit the cached label is returned and every other argument is
ignored.  Returns the label together with the updated cache. -/
def map_process_memo (cache : List (String × String)) (process : String)
    (string_map : String → Option String) (re_map : List (RePat × String))
    (default_category : String) : String × List (String × String) :=
  match cacheLookup cache process with
  | some v => (v, cache)
  | none =>
    let r := map_process process string_map re_map default_category
    (r, (process, r) :: cache)

/-! ### Dates (`normalize_time_stamp`, `difference_days`, `sort_dates`,
`datetime.isocalendar`) -/

/-- `str.split(c)` on the underlying character list (structural stand-in
for `String.splitOn`). -/
def splitOnChar (c : Char) : List Char → List (List Char)
  | [] => [[]]
  | x :: rest =>
    match splitOnChar c rest with
    | [] => [[]]
    | g :: gs => if x = c then [] :: g :: gs else (x :: g) :: gs

/-- Parse a digit string (Python `int` restricted to the nonnegative
inputs the claims exercise). -/
def parseNatAux : List Char → Nat → Option Nat
  | [], acc => some acc
  | c :: rest, acc =>
    if c.isDigit then parseNatAux rest (acc * 10 + (c.toNat - 48)) else none

/-- Python `int` on a nonempty digit string; `none` models the
`ValueError` that aborts the run on malformed input. -/
def parseNatChars (cs : List Char) : Option Nat :=
  match cs with
  | [] => none
  | _ :: _ => parseNatAux cs 0

/-- Python `int` allowing a leading minus sign. -/
def parseIntChars (cs : List Char) : Option Int :=
  match cs with
  | c :: rest =>
    if c = ('-') then (parseNatChars rest).map (fun n => -(n : Int))
    else (parseNatChars cs).map (fun n => (n : Int))
  | [] => none

/-- Parse a `YYYY-MM-DD` string into its three numeric components
(`datetime.date(int(y), int(m), int(d))`; malformed components, which
would abort the Python run, are read as 0 and are never exercised by the
claims). -/
def parseDate (s : String) : Nat × Nat × Nat :=
  match (splitOnChar ('-') s.toList).map (fun t => (parseNatChars t).getD 0) with
  | [y, m, d] => (y, m, d)
  | _ => (0, 0, 0)

/-- Day count of a civil date (days since 0000-03-01 of the proleptic
Gregorian calendar), valid for year ≥ 1; this is the day-number model
backing `datetime.date` subtraction and `isocalendar`. -/
def days_from_civil (y m d : Nat) : Nat :=
  let y2 := if m ≤ 2 then y - 1 else y
  let era := y2 / 400
  let yoe := y2 % 400
  let mp := if m > 2 then m - 3 else m + 9
  let doy := (153 * mp + 2) / 5 + d - 1
  let doe := yoe * 365 + yoe / 4 - yoe / 100 + doy
  era * 146097 + doe

/-- Day number of a `YYYY-MM-DD` string. -/
def dateNum (s : String) : Nat :=
  days_from_civil (parseDate s).1 (parseDate s).2.1 (parseDate s).2.2

/-- `difference_days(date1, date2)`: `(date2 - date1).days` on the parsed
calendar dates. -/
def difference_days (date1 date2 : String) : Int :=
  (dateNum date2 : Int) - (dateNum date1 : Int)

/-- `normalize_time_stamp`: `time_stamp.split('T')[0]`, i.e. the prefix
before the first `T`. -/
def normalize_time_stamp (time_stamp : String) : String :=
  String.mk (time_stamp.toList.takeWhile (fun c => !(c == ('T'))))

/-- Insert a date into an ascending-by-calendar-date list. -/
def insertDateAsc (x : String) : List String → List String
  | [] => [x]
  | y :: rest =>
    if dateNum x ≤ dateNum y then x :: y :: rest else y :: insertDateAsc x rest

/-- `sort_dates`: sort date strings by their calendar date, ascending. -/
def sort_dates (dates : List String) : List String :=
  dates.foldr insertDateAsc []

/-- ISO weekday (Monday = 1 … Sunday = 7) of a civil date. -/
def isoWeekday (y m d : Nat) : Nat :=
  (days_from_civil y m d + 2) % 7 + 1

/-- Helper for the 52/53-week rule of the ISO week calendar. -/
def pIso (y : Nat) : Nat :=
  (y + y / 4 - y / 100 + y / 400) % 7

/-- Number of ISO weeks in ISO year `y` (52 or 53). -/
def weeksInIsoYear (y : Nat) : Nat :=
  if pIso y = 4 ∨ pIso (y - 1) = 3 then 53 else 52

/-- `datetime.date(y, m, d).isocalendar()`, restricted to its first two
components: the ISO year and the ISO week number. -/
def isocalendar (y m d : Nat) : Nat × Nat :=
  let doy := days_from_civil y m d - days_from_civil y 1 1 + 1
  let w := (doy + 10 - isoWeekday y m d) / 7
  if w = 0 then (y - 1, weeksInIsoYear (y - 1))
  else if w = 53 ∧ weeksInIsoYear y = 52 then (y + 1, 1)
  else (y, w)

/-- `datetime.datetime.strptime(date, '%Y-%m-%d').isocalendar()[1]`. -/
def isoWeek (date : String) : Nat :=
  (isocalendar (parseDate date).1 (parseDate date).2.1 (parseDate date).2.2).2

/-! ### Field casts and range tracking -/

/-- `s.endswith(c)` for a single-character suffix. -/
def endsWithChar (s : String) (c : Char) : Bool :=
  match s.toList.getLast? with
  | some x => x = c
  | none => false

/-- `_cast_to_mb`: `M` suffix is literal MB, `G` suffix is ×1000 MB;
anything else writes a diagnostic and exits the whole process with status
1 (`none` here).  A non-numeric magnitude, which raises `ValueError` in
Python and also aborts the run, is likewise `none`. -/
def _cast_to_mb (s : String) : Option Int :=
  if endsWithChar s ('M') then parseIntChars s.toList.dropLast
  else if endsWithChar s ('G') then (parseIntChars s.toList.dropLast).map (fun n => 1000 * n)
  else none

/-- `sys.maxsize`. -/
def maxsize : Int := 9223372036854775807

/-- The seed of every requested-range entry: `(sys.maxsize, -sys.maxsize)`. -/
def sentinel : Int × Int := (maxsize, -maxsize)

/-- `_adjust_min_max`: widen the `(min, max)` pair by `value` when it is
present; leave the pair unchanged when `value` is `None`. -/
def _adjust_min_max (t : Int × Int) (value : Option Int) : Int × Int :=
  match value with
  | none => t
  | some v => (min t.1 v, max t.2 v)

/-! ### The aggregator (`extract_and_map_data`) -/

/-- One parsed input row (the columns of one csv line, with the
unconditionally-parsed numeric columns already typed; columns 9 and 10 are
kept raw because the source parses them only when a job context exists). -/
structure Line where
  time_stamp : String
  hostname : String
  num_cores_on_node : Int
  user : String
  process : String
  cpu_percentage : ℚ
  mem_used : String
  project : String
  job_id : String
  num_cores_requested_raw : String
  mem_requested_raw : String
  deriving DecidableEq

/-- The four-way parse of the job-context columns: when `line[7]` is the
`"-"` sentinel all three job fields are `None`; otherwise `line[9]` is
parsed as an int and `line[10]` is cast to MB, either failure aborting
the run. -/
def jobFields (l : Line) : Option (Option Int × Option Int) :=
  if l.project = "-" then some (none, none)
  else
    match parseIntChars l.num_cores_requested_raw.toList, _cast_to_mb l.mem_requested_raw with
    | some c, some m => some (some c, some m)
    | _, _ => none

/-- `num_cores_requested` as the source computes it (when it computes it). -/
def reqCores (l : Line) : Option Int :=
  if l.project = "-" then none else parseIntChars l.num_cores_requested_raw.toList

/-- `mem_requested` as the source computes it (when it computes it). -/
def reqMem (l : Line) : Option Int :=
  if l.project = "-" then none else _cast_to_mb l.mem_requested_raw

/-- The whole accumulator state of one `extract_and_map_data` run. -/
structure Data where
  unmapped_cpu_load : List ((String × String) × ℚ)
  app_cpu_load : List ((String × String) × ℚ)
  unmapped_cpu_res : List ((String × String) × Int)
  app_cpu_res : List ((String × String) × Int)
  unmapped_num_cores_requested : List ((String × String) × (Int × Int))
  app_num_cores_requested : List ((String × String) × (Int × Int))
  unmapped_mem_requested : List ((String × String) × (Int × Int))
  app_mem_requested : List ((String × String) × (Int × Int))
  dates : List String
  daily_cpu_load : List (String × List (String × ℚ))
  deriving DecidableEq

/-- All accumulators start empty. -/
def initData : Data :=
  ⟨[], [], [], [], [], [], [], [], [], []⟩

/-- The loop body of `extract_and_map_data` for one in-window line: parse
the job fields (possibly aborting), classify, and route the four updates
to the unmapped namespace keyed by `(process, user)` when the process
classified to the default category, or to the app namespace keyed by
`(app, user)` otherwise; `daily_cpu_load` is always keyed by the resolved
app. -/
def step (sm : String → Option String) (rm : List (RePat × String)) (dc : String)
    (l : Line) (d : Data) : Option Data :=
  let time_stamp := normalize_time_stamp l.time_stamp
  match jobFields l with
  | none => none
  | some (num_cores_requested, mem_requested) =>
    let app := map_process l.process sm rm dc
    let cpu_load := (1 / 100 : ℚ) * l.cpu_percentage
    let d :=
      { d with dates := if time_stamp ∈ d.dates then d.dates else d.dates ++ [time_stamp] }
    some
      (if app = dc then
        { d with
          unmapped_cpu_load := addTo d.unmapped_cpu_load (l.process, l.user) cpu_load,
          unmapped_cpu_res := addToInt d.unmapped_cpu_res (l.process, l.user) l.num_cores_on_node,
          unmapped_num_cores_requested :=
            updD d.unmapped_num_cores_requested (l.process, l.user) sentinel
              (fun t => _adjust_min_max t num_cores_requested),
          unmapped_mem_requested :=
            updD d.unmapped_mem_requested (l.process, l.user) sentinel
              (fun t => _adjust_min_max t mem_requested),
          daily_cpu_load :=
            updD d.daily_cpu_load time_stamp [] (fun m => addTo m app cpu_load) }
      else
        { d with
          app_cpu_load := addTo d.app_cpu_load (app, l.user) cpu_load,
          app_cpu_res := addToInt d.app_cpu_res (app, l.user) l.num_cores_on_node,
          app_num_cores_requested :=
            updD d.app_num_cores_requested (app, l.user) sentinel
              (fun t => _adjust_min_max t num_cores_requested),
          app_mem_requested :=
            updD d.app_mem_requested (app, l.user) sentinel
              (fun t => _adjust_min_max t mem_requested),
          daily_cpu_load :=
            updD d.daily_cpu_load time_stamp [] (fun m => addTo m app cpu_load) })

/-- The record loop: a line whose normalized date is strictly more than
`num_days` days before `today` is skipped entirely (the `continue`
precedes every accumulator update); otherwise the line is processed by
`step`, and a `step` abort aborts the run. -/
def extract_lines (sm : String → Option String) (rm : List (RePat × String)) (dc : String)
    (num_days : Int) (today : String) : List Line → Data → Option Data
  | [], d => some d
  | l :: rest, d =>
    if difference_days (normalize_time_stamp l.time_stamp) today > num_days then
      extract_lines sm rm dc num_days today rest d
    else
      match step sm rm dc l d with
      | none => none
      | some d' => extract_lines sm rm dc num_days today rest d'

/-- `extract_and_map_data` on the already-parsed rows: run the record loop
from empty accumulators and sort the collected date set. -/
def extract_and_map_data (sm : String → Option String) (rm : List (RePat × String))
    (dc : String) (num_days : Int) (today : String) (lines : List Line) : Option Data :=
  (extract_lines sm rm dc num_days today lines initData).map
    (fun d => { d with dates := sort_dates d.dates })

/-- A line is in the retention window when its calendar-date distance to
today is at most `num_days` (the loop skips it on `> num_days`). -/
def inWindow (num_days : Int) (today : String) (l : Line) : Prop :=
  difference_days (normalize_time_stamp l.time_stamp) today ≤ num_days

instance (num_days : Int) (today : String) (l : Line) :
    Decidable (inWindow num_days today l) := by
  unfold inWindow; infer_instance

/-- The app a line's process resolves to. -/
def appOf (sm : String → Option String) (rm : List (RePat × String)) (dc : String)
    (l : Line) : String :=
  map_process l.process sm rm dc

/-- The processed line supplied a requested-cores value to app-namespace
key `k`. -/
def suppliesAppCores (sm : String → Option String) (rm : List (RePat × String))
    (dc : String) (nd : Int) (today : String) (k : String × String) (l : Line) : Prop :=
  inWindow nd today l ∧ appOf sm rm dc l ≠ dc ∧ (reqCores l).isSome = true ∧
    k = (appOf sm rm dc l, l.user)

/-- The processed line supplied a requested-cores value to unmapped-namespace
key `k`. -/
def suppliesUnmappedCores (sm : String → Option String) (rm : List (RePat × String))
    (dc : String) (nd : Int) (today : String) (k : String × String) (l : Line) : Prop :=
  inWindow nd today l ∧ appOf sm rm dc l = dc ∧ (reqCores l).isSome = true ∧
    k = (l.process, l.user)

/-- The processed line supplied a requested-memory value to app-namespace
key `k`. -/
def suppliesAppMem (sm : String → Option String) (rm : List (RePat × String))
    (dc : String) (nd : Int) (today : String) (k : String × String) (l : Line) : Prop :=
  inWindow nd today l ∧ appOf sm rm dc l ≠ dc ∧ (reqMem l).isSome = true ∧
    k = (appOf sm rm dc l, l.user)

/-- The processed line supplied a requested-memory value to unmapped-namespace
key `k`. -/
def suppliesUnmappedMem (sm : String → Option String) (rm : List (RePat × String))
    (dc : String) (nd : Int) (today : String) (k : String × String) (l : Line) : Prop :=
  inWindow nd today l ∧ appOf sm rm dc l = dc ∧ (reqMem l).isSome = true ∧
    k = (l.process, l.user)

instance (sm : String → Option String) (rm : List (RePat × String)) (dc : String)
    (nd : Int) (today : String) (k : String × String) (l : Line) :
    Decidable (suppliesAppCores sm rm dc nd today k l) := by
  unfold suppliesAppCores; infer_instance

instance (sm : String → Option String) (rm : List (RePat × String)) (dc : String)
    (nd : Int) (today : String) (k : String × String) (l : Line) :
    Decidable (suppliesUnmappedCores sm rm dc nd today k l) := by
  unfold suppliesUnmappedCores; infer_instance

instance (sm : String → Option String) (rm : List (RePat × String)) (dc : String)
    (nd : Int) (today : String) (k : String × String) (l : Line) :
    Decidable (suppliesAppMem sm rm dc nd today k l) := by
  unfold suppliesAppMem; infer_instance

instance (sm : String → Option String) (rm : List (RePat × String)) (dc : String)
    (nd : Int) (today : String) (k : String × String) (l : Line) :
    Decidable (suppliesUnmappedMem sm rm dc nd today k l) := by
  unfold suppliesUnmappedMem; infer_instance

/-- The single min/max update a processed line applies to
`app_num_cores_requested`: none when the line routes to the unmapped
namespace. -/
def updAppCores (sm : String → Option String) (rm : List (RePat × String)) (dc : String)
    (l : Line) : Option ((String × String) × Option Int) :=
  if appOf sm rm dc l = dc then none else some ((appOf sm rm dc l, l.user), reqCores l)

/-- The single min/max update a processed line applies to
`unmapped_num_cores_requested`. -/
def updUnmappedCores (sm : String → Option String) (rm : List (RePat × String))
    (dc : String) (l : Line) : Option ((String × String) × Option Int) :=
  if appOf sm rm dc l = dc then some ((l.process, l.user), reqCores l) else none

/-- The single min/max update a processed line applies to
`app_mem_requested`. -/
def updAppMem (sm : String → Option String) (rm : List (RePat × String)) (dc : String)
    (l : Line) : Option ((String × String) × Option Int) :=
  if appOf sm rm dc l = dc then none else some ((appOf sm rm dc l, l.user), reqMem l)

/-- The single min/max update a processed line applies to
`unmapped_mem_requested`. -/
def updUnmappedMem (sm : String → Option String) (rm : List (RePat × String))
    (dc : String) (l : Line) : Option ((String × String) × Option Int) :=
  if appOf sm rm dc l = dc then some ((l.process, l.user), reqMem l) else none

/-- The invariant of one requested-range map: each key either still holds
the untouched sentinel and was never supplied a value (`¬ P k`), or holds
an ordered pair and was supplied at least one value (`P k`). -/
def MMInv (m : List ((String × String) × (Int × Int)))
    (P : (String × String) → Prop) : Prop :=
  ∀ k, (getD m k sentinel = sentinel ∧ ¬ P k) ∨
    ((getD m k sentinel).1 ≤ (getD m k sentinel).2 ∧ P k)

/-! ### Calendar rollup (`compute_sums`) -/

/-- Collapse a per-(key, user) map to a per-key map
(`_load[key[0]] += m[key]`). -/
def collapseFirst (m : List ((String × String) × ℚ)) : List (String × ℚ) :=
  m.foldl (fun acc kv => addTo acc kv.1.1 kv.2) []

/-- Collapse for integer-valued maps (`_res[key[0]] += m[key]`). -/
def collapseFirstInt (m : List ((String × String) × Int)) : List (String × Int) :=
  m.foldl (fun acc kv => addToInt acc kv.1.1 kv.2) []

/-- Insert into a list sorted descending by `val`. -/
def insertDescBy {A B : Type} [LinearOrder B] (val : A → B) (x : A) :
    List A → List A
  | [] => [x]
  | y :: rest => if val x > val y then x :: y :: rest else y :: insertDescBy val x rest

/-- `sorted(m, key=lambda x: m[x], reverse=True)`: the keys of the map
sorted descending by their value. -/
def sortedKeysDesc {K B : Type} [DecidableEq K] [LinearOrder B] (m : List (K × B))
    (d : B) : List K :=
  (m.map (fun p => p.1)).foldr (insertDescBy (fun k => getD m k d)) []

/-- `'-'.join`. -/
def joinDash : List String → String
  | [] => ""
  | [x] => x
  | x :: rest => x ++ "-" ++ joinDash rest

/-- The bucket key of one date: itself for `daily`; the calendar year
taken from the date string paired with the ISO week number for `weekly`;
`YYYY-MM` for `monthly`.  Any other granularity leaves the loop variable
`key` unbound in the source (a `NameError` crash), hence `none`. -/
def bucketKey (granularity : String) (date : String) : Option String :=
  if granularity = "daily" then some date
  else if granularity = "weekly" then
    some (String.mk ((splitOnChar ('-') date.toList).headD []) ++ "-" ++ toString (isoWeek date))
  else if granularity = "monthly" then
    some (joinDash (((splitOnChar ('-') date.toList).take 2).map String.mk))
  else none

/-- Vector accumulation into `sums[key]`: pointwise add when the key
exists, else install `n` (fresh dict keys append at the end). -/
def addVec (m : List (String × List ℚ)) (k : String) (n : List ℚ) :
    List (String × List ℚ) :=
  match m with
  | [] => [(k, n)]
  | (k', v) :: rest =>
    if k = k' then (k', List.zipWith (fun a b => a + b) v n) :: rest
    else (k', v) :: addVec rest k n

/-- The date loop of `compute_sums`: per date, read the top-app vector
from `daily_cpu_load`, bucket it, and add the date's total load (over all
apps of that date) into the bucket's denominator. -/
def bucketFold (granularity : String) (daily : List (String × List (String × ℚ)))
    (apps : List String) :
    List String → List (String × List ℚ) → List (String × ℚ) →
      Option (List (String × List ℚ) × List (String × ℚ))
  | [], sums, totals => some (sums, totals)
  | date :: rest, sums, totals =>
    let numbers := apps.map (fun a => getD (getD daily date []) a 0)
    match bucketKey granularity date with
    | none => none
    | some key =>
      bucketFold granularity daily apps rest (addVec sums key numbers)
        (addTo totals key (sumValues (getD daily date [])))

/-- The percentage pass of `compute_sums`: each bucket vector entry is
replaced by `100 * e / totals[key]`; a zero denominator is a
`ZeroDivisionError` crash (`none`).  The two-decimal string formatting of
the source is presentational and not modelled. -/
def pctAll (totals : List (String × ℚ)) :
    List (String × List ℚ) → Option (List (String × List ℚ))
  | [] => some []
  | (k, v) :: rest =>
    if getD totals k 0 = 0 then none
    else
      match pctAll totals rest with
      | none => none
      | some r => some ((k, v.map (fun e => 100 * e / getD totals k 0)) :: r)

/-- `compute_sums`: pick the top-9 apps by total mapped cpu load plus the
default category as a fixed 10th column, bucket the per-date vectors by
granularity, and convert each bucket to percentages of its own total. -/
def compute_sums (granularity : String) (d : Data) (default_category : String) :
    Option (List String × List (String × List ℚ)) :=
  let apps := (sortedKeysDesc (collapseFirst d.app_cpu_load) 0).take 9 ++ [default_category]
  match bucketFold granularity d.daily_cpu_load apps d.dates [] [] with
  | none => none
  | some (sums, totals) =>
    match pctAll totals sums with
    | none => none
    | some psums => some (apps, psums)

/-- Modelled from the spec: the spec asserts the weekly bucket key is the
pair "(ISO year, ISO week number)" of the date; the source instead pairs
the calendar year from the date string with the ISO week number.  This
definition follows the spec's words, for comparison with `bucketKey`. -/
def spec_weekly_key (date : String) : String :=
  toString (isocalendar (parseDate date).1 (parseDate date).2.1 (parseDate date).2.2).1
    ++ "-" ++ toString (isoWeek date)

/-! ### Ranked summary (`output`, `_output_section`) -/

/-- Python float division; dividing by zero raises `ZeroDivisionError`
(aborting the report), hence `none`. -/
def pydiv (a b : ℚ) : Option ℚ :=
  if b = 0 then none else some (a / b)

/-- `take_max`: the first `how_many` elements (the `zip`-based source
crashes on an empty collection, but is only ever applied to nonempty
ones). -/
def take_max {A : Type} (how_many : Nat) (collection : List A) : List A :=
  collection.take how_many

/-- One printed top-user row: user, load %, reserve %, requested-cores
range, requested-memory range. -/
structure UserLine where
  user : String
  load_pct : ℚ
  res_pct : ℚ
  cores_range : Int × Int
  mem_range : Int × Int
  deriving DecidableEq

/-- One printed per-app row with its top-user rows. -/
structure AppLine where
  app : String
  load_pct : ℚ
  res_pct : ℚ
  users : List UserLine
  deriving DecidableEq

/-- `{u: cpu_res[(k, u)] for k, u in cpu_res.keys() if k == key}`. -/
def usersOf (cpu_res : List ((String × String) × Int)) (key : String) :
    List (String × Int) :=
  (cpu_res.filter (fun kv => kv.1.1 = key)).map (fun kv => (kv.1.2, kv.2))

/-- The inner user loop of `_output_section`. -/
def userReport (cpu_load : List ((String × String) × ℚ)) (cpu_load_sum : ℚ)
    (cpu_res : List ((String × String) × Int)) (cpu_res_sum : ℚ)
    (ncr mr : List ((String × String) × (Int × Int))) (key : String) :
    List String → Option (List UserLine)
  | [] => some []
  | u :: rest =>
    match pydiv (100 * ((getD cpu_res (key, u) 0 : Int) : ℚ)) cpu_res_sum,
        pydiv (100 * getD cpu_load (key, u) 0) cpu_load_sum with
    | some rp, some lp =>
      match userReport cpu_load cpu_load_sum cpu_res cpu_res_sum ncr mr key rest with
      | none => none
      | some r =>
        some (⟨u, lp, rp, getD ncr (key, u) sentinel, getD mr (key, u) sentinel⟩ :: r)
    | _, _ => none

/-- The outer key loop of `_output_section`: both percentages are computed
(and can fault) before the cutoff test; only keys whose reserve share is
strictly above the cutoff are printed, with their top two users. -/
def sectionApps (cpu_load : List ((String × String) × ℚ)) (cpu_load_sum : ℚ)
    (cpu_res : List ((String × String) × Int)) (cpu_res_sum : ℚ)
    (ncr mr : List ((String × String) × (Int × Int))) (percentage_cutoff : ℚ)
    (load1 : List (String × ℚ)) (res1 : List (String × Int)) :
    List String → Option (List AppLine)
  | [] => some []
  | k :: rest =>
    match pydiv (100 * getD load1 k 0) cpu_load_sum,
        pydiv (100 * ((getD res1 k 0 : Int) : ℚ)) cpu_res_sum with
    | some lp, some rp =>
      match sectionApps cpu_load cpu_load_sum cpu_res cpu_res_sum ncr mr
          percentage_cutoff load1 res1 rest with
      | none => none
      | some r =>
        if rp > percentage_cutoff then
          match userReport cpu_load cpu_load_sum cpu_res cpu_res_sum ncr mr k
              (take_max 2 (sortedKeysDesc (usersOf cpu_res k) 0)) with
          | none => none
          | some ul => some (⟨k, lp, rp, ul⟩ :: r)
        else some r
    | _, _ => none

/-- `_output_section`: collapse the per-user maps to per-app totals, then
walk the apps in descending order of reserved cores. -/
def _output_section (cpu_load : List ((String × String) × ℚ)) (cpu_load_sum : ℚ)
    (cpu_res : List ((String × String) × Int)) (cpu_res_sum : ℚ)
    (ncr mr : List ((String × String) × (Int × Int))) (percentage_cutoff : ℚ) :
    Option (List AppLine) :=
  let res1 := collapseFirstInt cpu_res
  let load1 := collapseFirst cpu_load
  sectionApps cpu_load cpu_load_sum cpu_res cpu_res_sum ncr mr percentage_cutoff
    load1 res1 (sortedKeysDesc res1 0)

/-- The whole generated report: mapped section, the two unmapped grand
percentages, and the unmapped section. -/
structure Report where
  app_section : List AppLine
  unmapped_load_pct : ℚ
  unmapped_res_pct : ℚ
  unmapped_section : List AppLine
  deriving DecidableEq

/-- `output`: grand totals over mapped plus unmapped, the mapped section,
the unmapped grand percentages (unconditional divisions by the grand
totals), and the unmapped section. -/
def output (data : Data) (_default_category : String) (percentage_cutoff : ℚ) :
    Option Report :=
  let cpu_load_sum := sumValues data.app_cpu_load + sumValues data.unmapped_cpu_load
  let cpu_res_sum :=
    ((sumValuesInt data.app_cpu_res + sumValuesInt data.unmapped_cpu_res : Int) : ℚ)
  match _output_section data.app_cpu_load cpu_load_sum data.app_cpu_res cpu_res_sum
      data.app_num_cores_requested data.app_mem_requested percentage_cutoff with
  | none => none
  | some s1 =>
    match pydiv (100 * sumValues data.unmapped_cpu_load) cpu_load_sum,
        pydiv (100 * (sumValuesInt data.unmapped_cpu_res : ℚ)) cpu_res_sum with
    | some lp, some rp =>
      match _output_section data.unmapped_cpu_load cpu_load_sum data.unmapped_cpu_res
          cpu_res_sum data.unmapped_num_cores_requested data.unmapped_mem_requested
          percentage_cutoff with
      | none => none
      | some s2 => some ⟨s1, lp, rp, s2⟩
    | _, _ => none

/-- Pattern used by concrete witnesses: matches nowhere. -/
def patNever : RePat := fun _ => false

/-- Pattern used by concrete witnesses: matches where the next four
characters are `fire` (so it matches anywhere inside a string containing
`fire` as a substring). -/
def patFire : RePat := fun cs => cs.take 4 == ("fire").toList

/-- Exact-match table used by concrete witnesses. -/
def smSkype : String → Option String := fun s =>
  if s = "skype" then some ("Skype") else none

/-- Empty exact-match table used by concrete witnesses. -/
def smNone : String → Option String := fun _ => none

/-- A row dated 2024-01-01, nine days before the sample `today`
(2024-01-10), hence outside a 5-day retention window. -/
def oldLine : Line :=
  ⟨"2024-01-01T00:00:00.000000+0200", "node1", 20, "bob", "firefox", 10, "500",
    "-", "-", "-", "-"⟩

/-- An in-window row (2024-01-09) without job context. -/
def goodLine : Line :=
  ⟨"2024-01-09T10:00:00.000000+0200", "node1", 20, "bob", "firefox", 25, "500",
    "-", "-", "-", "-"⟩

/-- An in-window row with job context whose requested-memory field `512`
carries no `M`/`G` suffix. -/
def badMemLine : Line :=
  ⟨"2024-01-09T08:00:00.000000+0200", "node1", 20, "bob", "firefox", 10, "500",
    "proj1", "77", "4", "512"⟩

/-- An in-window row whose process name matches no rule. -/
def mysteryLine : Line :=
  ⟨"2024-01-09T12:00:00.000000+0200", "node2", 16, "bob", "mystery", 10, "250",
    "-", "-", "-", "-"⟩

/-- The accumulator state after processing `goodLine` alone (everything
routed to the unmapped namespace, since no rule matches). -/
def goodOut : Data :=
  ⟨[(("firefox", "bob"), 1 / 4)], [], [(("firefox", "bob"), 20)], [],
    [(("firefox", "bob"), sentinel)], [], [(("firefox", "bob"), sentinel)], [],
    ["2024-01-09"], [("2024-01-09", [("unknown", 1 / 4)])]⟩

/-- The accumulator state after processing `mysteryLine` alone from empty
accumulators. -/
def mysteryOut : Data :=
  ⟨[(("mystery", "bob"), 1 / 10)], [], [(("mystery", "bob"), 16)], [],
    [(("mystery", "bob"), sentinel)], [], [(("mystery", "bob"), sentinel)], [],
    ["2024-01-09"], [("2024-01-09", [("unknown", 1 / 10)])]⟩

/-- An in-window row with job context: 4 requested cores, 512 MB
requested memory, and a process that matches no rule. -/
def jobLine : Line :=
  ⟨"2024-01-09T06:00:00.000000+0200", "node3", 32, "bob", "mystery", 50, "100",
    "proj1", "88", "4", "512M"⟩

/-- The accumulator state after processing `jobLine` alone. -/
def jobOut : Data :=
  ⟨[(("mystery", "bob"), 1 / 2)], [], [(("mystery", "bob"), 32)], [],
    [(("mystery", "bob"), (4, 4))], [], [(("mystery", "bob"), (512, 512))], [],
    ["2024-01-09"], [("2024-01-09", [("unknown", 1 / 2)])]⟩

/-- A run result holding one mapped record on 2019-12-30 — a calendar
date belonging to ISO week 1 of ISO year 2020. -/
def wkData : Data :=
  ⟨[], [(("Firefox", "bob"), 1)], [], [(("Firefox", "bob"), 20)], [], [], [], [],
    ["2019-12-30"], [("2019-12-30", [("Firefox", 1)])]⟩

/-- The columns `compute_sums` selects for `wkData`. -/
def wkApps : List String := ["Firefox", "unknown"]

/-- The weekly percentage table `compute_sums` emits for `wkData`. -/
def wkSums : List (String × List ℚ) := [("2019-1", [100, 0])]

/-- Exact-match table mapping `firefox` to `Firefox`. -/
def smFire : String → Option String := fun s =>
  if s = "firefox" then some ("Firefox") else none

/-- An in-window row whose process is mapped by `smFire`. -/
def fireLine : Line :=
  ⟨"2024-01-09T10:00:00.000000+0200", "node1", 20, "bob", "firefox", 25, "500",
    "-", "-", "-", "-"⟩

/-- The accumulator state after processing `fireLine` (mapped) and
`mysteryLine` (unmapped). -/
def pairOut : Data :=
  ⟨[(("mystery", "bob"), 1 / 10)], [(("Firefox", "bob"), 1 / 4)],
    [(("mystery", "bob"), 16)], [(("Firefox", "bob"), 20)],
    [(("mystery", "bob"), sentinel)], [(("Firefox", "bob"), sentinel)],
    [(("mystery", "bob"), sentinel)], [(("Firefox", "bob"), sentinel)],
    ["2024-01-09"],
    [("2024-01-09", [("Firefox", 1 / 4), ("unknown", 1 / 10)])]⟩

/-- Ten process-to-app rules, to overflow the nine reported app columns. -/
def tenPairs : List (String × String) :=
  [("p0", "App0"), ("p1", "App1"), ("p2", "App2"), ("p3", "App3"), ("p4", "App4"),
   ("p5", "App5"), ("p6", "App6"), ("p7", "App7"), ("p8", "App8"), ("p9", "App9")]

/-- Exact-match table backed by `tenPairs`. -/
def smTen : String → Option String := fun s =>
  (tenPairs.find? (fun kv => kv.1 == s)).map (fun kv => kv.2)

/-- Ten in-window rows on one date with strictly decreasing cpu
percentages, so that `App9` ends up outside the nine reported columns
while still contributing load. -/
def tenLines : List Line :=
  [⟨"2024-01-09T00:00:00.000000+0200", "node1", 8, "bob", "p0", 10, "100", "-", "-", "-", "-"⟩,
   ⟨"2024-01-09T01:00:00.000000+0200", "node1", 8, "bob", "p1", 9, "100", "-", "-", "-", "-"⟩,
   ⟨"2024-01-09T02:00:00.000000+0200", "node1", 8, "bob", "p2", 8, "100", "-", "-", "-", "-"⟩,
   ⟨"2024-01-09T03:00:00.000000+0200", "node1", 8, "bob", "p3", 7, "100", "-", "-", "-", "-"⟩,
   ⟨"2024-01-09T04:00:00.000000+0200", "node1", 8, "bob", "p4", 6, "100", "-", "-", "-", "-"⟩,
   ⟨"2024-01-09T05:00:00.000000+0200", "node1", 8, "bob", "p5", 5, "100", "-", "-", "-", "-"⟩,
   ⟨"2024-01-09T06:00:00.000000+0200", "node1", 8, "bob", "p6", 4, "100", "-", "-", "-", "-"⟩,
   ⟨"2024-01-09T07:00:00.000000+0200", "node1", 8, "bob", "p7", 3, "100", "-", "-", "-", "-"⟩,
   ⟨"2024-01-09T08:00:00.000000+0200", "node1", 8, "bob", "p8", 2, "100", "-", "-", "-", "-"⟩,
   ⟨"2024-01-09T09:00:00.000000+0200", "node1", 8, "bob", "p9", 1, "100", "-", "-", "-", "-"⟩]

/-- The accumulator state after processing `tenLines`. -/
def tenOut : Data :=
  ⟨[],
   [(("App0", "bob"), 1 / 10), (("App1", "bob"), 9 / 100), (("App2", "bob"), 2 / 25),
    (("App3", "bob"), 7 / 100), (("App4", "bob"), 3 / 50), (("App5", "bob"), 1 / 20),
    (("App6", "bob"), 1 / 25), (("App7", "bob"), 3 / 100), (("App8", "bob"), 1 / 50),
    (("App9", "bob"), 1 / 100)],
   [],
   [(("App0", "bob"), 8), (("App1", "bob"), 8), (("App2", "bob"), 8),
    (("App3", "bob"), 8), (("App4", "bob"), 8), (("App5", "bob"), 8),
    (("App6", "bob"), 8), (("App7", "bob"), 8), (("App8", "bob"), 8),
    (("App9", "bob"), 8)],
   [],
   [(("App0", "bob"), sentinel), (("App1", "bob"), sentinel), (("App2", "bob"), sentinel),
    (("App3", "bob"), sentinel), (("App4", "bob"), sentinel), (("App5", "bob"), sentinel),
    (("App6", "bob"), sentinel), (("App7", "bob"), sentinel), (("App8", "bob"), sentinel),
    (("App9", "bob"), sentinel)],
   [],
   [(("App0", "bob"), sentinel), (("App1", "bob"), sentinel), (("App2", "bob"), sentinel),
    (("App3", "bob"), sentinel), (("App4", "bob"), sentinel), (("App5", "bob"), sentinel),
    (("App6", "bob"), sentinel), (("App7", "bob"), sentinel), (("App8", "bob"), sentinel),
    (("App9", "bob"), sentinel)],
   ["2024-01-09"],
   [("2024-01-09",
     [("App0", 1 / 10), ("App1", 9 / 100), ("App2", 2 / 25), ("App3", 7 / 100),
      ("App4", 3 / 50), ("App5", 1 / 20), ("App6", 1 / 25), ("App7", 3 / 100),
      ("App8", 1 / 50), ("App9", 1 / 100)])]⟩

/-- The monthly percentage row `compute_sums` emits for `tenOut`. -/
def tenRow : List ℚ :=
  [200 / 11, 180 / 11, 160 / 11, 140 / 11, 120 / 11, 100 / 11, 80 / 11, 60 / 11,
   40 / 11, 0]

/-! ## Theorems -/

/-! ### Shared map lemmas -/

theorem getD_updD {K V : Type} [DecidableEq K] (m : List (K × V)) (k k' : K) (d : V)
    (f : V → V) :
    getD (updD m k d f) k' d = if k' = k then f (getD m k d) else getD m k' d := by
  induction m with
  | nil =>
    by_cases h : k' = k <;> simp [updD, getD, h]
  | cons p rest ih =>
    obtain ⟨k0, v0⟩ := p
    by_cases hk : k = k0
    · subst hk
      by_cases h' : k' = k <;> simp [updD, getD, h']
    · by_cases h' : k' = k0
      · subst h'
        have hne : ¬ k' = k := fun h => hk h.symm
        simp [updD, getD, hk, hne]
      · simp [updD, getD, hk, h', ih]

theorem sumValues_addTo {K : Type} [DecidableEq K] (m : List (K × ℚ)) (k : K) (v : ℚ) :
    sumValues (addTo m k v) = sumValues m + v := by
  induction m with
  | nil => simp [addTo, updD, sumValues]
  | cons p rest ih =>
    obtain ⟨k0, v0⟩ := p
    by_cases hk : k = k0
    · subst hk
      simp only [addTo, updD, if_pos rfl, if_true, sumValues, List.map_cons,
        List.sum_cons]
      ring
    · simp only [addTo, updD, if_neg hk, sumValues, List.map_cons, List.sum_cons]
      have ih' := ih
      simp only [addTo, sumValues] at ih'
      rw [ih']
      ring

/-! ### C1: classification order on a cache miss -/

theorem scanReMap_eq_none (p : String) (rm : List (RePat × String))
    (h : ∀ e ∈ rm, reSearch e.1 p = false) : scanReMap p rm = none := by
  induction rm with
  | nil => rfl
  | cons e rest ih =>
    obtain ⟨k, v⟩ := e
    have hk := h (k, v) (List.mem_cons_self _ _)
    simp only [scanReMap, hk, Bool.false_eq_true, if_false]
    exact ih (fun e he => h e (List.mem_cons_of_mem _ he))

theorem scanReMap_first (p : String) (rm1 rm2 : List (RePat × String)) (k : RePat)
    (v : String) (h1 : ∀ e ∈ rm1, reSearch e.1 p = false) (hk : reSearch k p = true) :
    scanReMap p (rm1 ++ (k, v) :: rm2) = some v := by
  induction rm1 with
  | nil => simp [scanReMap, hk]
  | cons e rest ih =>
    obtain ⟨k0, v0⟩ := e
    have hk0 := h1 (k0, v0) (List.mem_cons_self _ _)
    simp only [List.cons_append, scanReMap, hk0, Bool.false_eq_true, if_false]
    exact ih (fun e he => h1 e (List.mem_cons_of_mem _ he))

/-- C1: on a cache miss, `map_process` returns the exact-match entry
when one exists; otherwise the label of the first pattern in the ordered
pattern list that matches anywhere within the process name; otherwise
`default_category`.  Exact-match lookup takes precedence over the pattern
rules. -/
theorem claim1_classification_order (cache : List (String × String)) (p : String)
    (sm : String → Option String) (rm : List (RePat × String)) (dc : String)
    (hmiss : cacheLookup cache p = none) :
    (∀ v, sm p = some v → (map_process_memo cache p sm rm dc).1 = v) ∧
    (sm p = none →
      ∀ rm1 k v rm2, rm = rm1 ++ (k, v) :: rm2 →
        (∀ e ∈ rm1, reSearch e.1 p = false) → reSearch k p = true →
        (map_process_memo cache p sm rm dc).1 = v) ∧
    (sm p = none → (∀ e ∈ rm, reSearch e.1 p = false) →
      (map_process_memo cache p sm rm dc).1 = dc) := by
  refine ⟨?_, ?_, ?_⟩
  · intro v hv
    simp [map_process_memo, hmiss, map_process, hv]
  · intro hnone rm1 k v rm2 hrm h1 hk
    subst hrm
    simp [map_process_memo, hmiss, map_process, hnone, scanReMap_first p rm1 rm2 k v h1 hk]
  · intro hnone hall
    simp [map_process_memo, hmiss, map_process, hnone, scanReMap_eq_none p rm hall]

/-- Witness for C1: with an empty cache, `skype` resolves through the
exact table, `firefox` through the first matching pattern (the second
rule, by substring search), and `vim` through neither, yielding the
default category. -/
theorem claim1_witness :
    cacheLookup [] ("xfirefoxy") = none ∧
    (map_process_memo [] ("skype") smSkype [(patNever, "A")] ("unknown")).1 = "Skype" ∧
    (map_process_memo [] ("xfirefoxy") smSkype
      [(patNever, "A"), (patFire, "Firefox")] ("unknown")).1 = "Firefox" ∧
    (map_process_memo [] ("vim") smSkype [(patNever, "A")] ("unknown")).1 = "unknown" := by
  refine ⟨rfl, ?_, ?_, ?_⟩
  · exact (claim1_classification_order [] ("skype") smSkype [(patNever, "A")] ("unknown")
      rfl).1 ("Skype") (by decide)
  · exact (claim1_classification_order [] ("xfirefoxy") smSkype
      [(patNever, "A"), (patFire, "Firefox")] ("unknown") rfl).2.1 (by decide)
      [(patNever, "A")] patFire ("Firefox") [] rfl (by decide) (by decide)
  · exact (claim1_classification_order [] ("vim") smSkype [(patNever, "A")] ("unknown")
      rfl).2.2 (by decide) (by decide)

/-! ### C2: the cache wins over everything else -/

/-- C2: classifying the same process name twice in one run returns the
same label both times, whatever the rule tables and default category of
the second call are — once cached, only the process name matters. -/
theorem claim2_cache_wins (cache : List (String × String)) (p : String)
    (sm1 sm2 : String → Option String) (rm1 rm2 : List (RePat × String))
    (dc1 dc2 : String) :
    (map_process_memo (map_process_memo cache p sm1 rm1 dc1).2 p sm2 rm2 dc2).1
      = (map_process_memo cache p sm1 rm1 dc1).1 := by
  cases h : cacheLookup cache p with
  | some v => simp [map_process_memo, h]
  | none => simp [map_process_memo, h, cacheLookup]

/-! ### C4: the retention window excludes old records entirely -/

theorem extract_lines_filter (sm : String → Option String) (rm : List (RePat × String))
    (dc : String) (nd : Int) (today : String) :
    ∀ (lines : List Line) (d : Data),
      extract_lines sm rm dc nd today
          (lines.filter (fun l => decide (inWindow nd today l))) d
        = extract_lines sm rm dc nd today lines d := by
  intro lines
  induction lines with
  | nil => intro d; rfl
  | cons l rest ih =>
    intro d
    by_cases hw : difference_days (normalize_time_stamp l.time_stamp) today > nd
    · have hf : decide (inWindow nd today l) = false := by
        simp [inWindow]
        exact hw
      rw [List.filter_cons, hf]
      simp only [extract_lines, if_pos hw, Bool.false_eq_true, if_false]
      exact ih d
    · have hf : decide (inWindow nd today l) = true := by
        simp [inWindow]
        exact not_lt.mp hw
      rw [List.filter_cons, hf]
      simp only [extract_lines, if_neg hw, if_true]
      cases hs : step sm rm dc l d with
      | none => rfl
      | some d1 => exact ih d1

/-- Counterexample to C4: a record nine days old with a 5-day window is
excluded from every accumulator, not only from `daily_load` — the run
result is the untouched empty state even though the record carried
`cpu_percent = 10`. -/
theorem claim4_counterexample :
    difference_days (normalize_time_stamp oldLine.time_stamp) ("2024-01-10") > 5 ∧
    oldLine.cpu_percentage = 10 ∧
    extract_and_map_data smNone [] ("unknown") 5 ("2024-01-10") [oldLine]
      = some initData ∧
    initData.unmapped_cpu_load = [] ∧ initData.app_cpu_load = [] ∧
    initData.unmapped_cpu_res = [] ∧ initData.app_cpu_res = [] ∧
    initData.unmapped_num_cores_requested = [] ∧
    initData.app_num_cores_requested = [] ∧
    initData.unmapped_mem_requested = [] ∧ initData.app_mem_requested = [] := by
  refine ⟨by decide, by decide, by decide, rfl, rfl, rfl, rfl, rfl, rfl, rfl, rfl⟩

/-- C4 (amended): a record whose calendar date is more than `num_days`
days before today is skipped before any update, so the whole run computes
exactly what it computes on the input restricted to in-window records —
old records are excluded from `daily_load` and from all overall
accumulators alike. -/
theorem claim4_amended_window_excludes_everything (sm : String → Option String)
    (rm : List (RePat × String)) (dc : String) (nd : Int) (today : String)
    (lines : List Line) :
    extract_and_map_data sm rm dc nd today lines
      = extract_and_map_data sm rm dc nd today
          (lines.filter (fun l => decide (inWindow nd today l))) := by
  unfold extract_and_map_data
  rw [extract_lines_filter]

/-! ### C3: conservation of cpu load over the processed records -/

theorem jobFields_eq_req (l : Line) (c m : Option Int)
    (h : jobFields l = some (c, m)) : c = reqCores l ∧ m = reqMem l := by
  by_cases hp : l.project = "-"
  · simp only [jobFields, if_pos hp] at h
    obtain ⟨hc, hm⟩ := Prod.mk.injEq .. ▸ Option.some.injEq .. ▸ h
    simp only [reqCores, reqMem, if_pos hp]
    cases h
    exact ⟨rfl, rfl⟩
  · simp only [jobFields, if_neg hp] at h
    cases hc : parseIntChars l.num_cores_requested_raw.toList with
    | none => rw [hc] at h; cases hm : _cast_to_mb l.mem_requested_raw <;> rw [hm] at h <;> cases h
    | some c0 =>
      rw [hc] at h
      cases hm : _cast_to_mb l.mem_requested_raw with
      | none => rw [hm] at h; cases h
      | some m0 =>
        rw [hm] at h
        cases h
        simp only [reqCores, reqMem, if_neg hp]
        exact ⟨hc.symm, hm.symm⟩

theorem step_load_sums (sm : String → Option String) (rm : List (RePat × String))
    (dc : String) (l : Line) (d d' : Data) (h : step sm rm dc l d = some d') :
    sumValues d'.app_cpu_load + sumValues d'.unmapped_cpu_load
      = sumValues d.app_cpu_load + sumValues d.unmapped_cpu_load
        + (1 / 100 : ℚ) * l.cpu_percentage := by
  cases hj : jobFields l with
  | none => simp [step, hj] at h
  | some cm =>
    obtain ⟨c, m⟩ := cm
    by_cases happ : map_process l.process sm rm dc = dc
    · simp only [step, hj, happ, if_pos rfl, if_true, Option.some.injEq] at h
      subst h
      simp [sumValues_addTo]
      ring
    · simp only [step, hj, if_neg happ, Option.some.injEq] at h
      subst h
      simp [sumValues_addTo]
      ring

theorem extract_lines_load_sum (sm : String → Option String)
    (rm : List (RePat × String)) (dc : String) (nd : Int) (today : String) :
    ∀ (lines : List Line) (d0 d : Data),
      extract_lines sm rm dc nd today lines d0 = some d →
      sumValues d.app_cpu_load + sumValues d.unmapped_cpu_load
        = sumValues d0.app_cpu_load + sumValues d0.unmapped_cpu_load
          + ((lines.filter (fun l => decide (inWindow nd today l))).map
              (fun l => (1 / 100 : ℚ) * l.cpu_percentage)).sum := by
  intro lines
  induction lines with
  | nil =>
    intro d0 d h
    simp only [extract_lines, Option.some.injEq] at h
    subst h
    simp
  | cons l rest ih =>
    intro d0 d h
    by_cases hw : difference_days (normalize_time_stamp l.time_stamp) today > nd
    · have hf : decide (inWindow nd today l) = false := by
        simp [inWindow]
        exact hw
      simp only [extract_lines, if_pos hw] at h
      rw [List.filter_cons, hf]
      simpa using ih d0 d h
    · have hf : decide (inWindow nd today l) = true := by
        simp [inWindow]
        exact not_lt.mp hw
      simp only [extract_lines, if_neg hw] at h
      cases hs : step sm rm dc l d0 with
      | none => rw [hs] at h; cases h
      | some d1 =>
        rw [hs] at h
        rw [List.filter_cons, hf]
        simp only [if_true, List.map_cons, List.sum_cons]
        have h1 := ih d1 d h
        have h2 := step_load_sums sm rm dc l d0 d1 hs
        rw [h1, h2]
        ring

/-- Counterexample to C3: with one record outside the retention window,
both cpu-load accumulators stay empty while the record's
`cpu_percent / 100` is `1/10`, so the accumulated total differs from the
sum over all input records. -/
theorem claim3_counterexample :
    extract_and_map_data smNone [] ("unknown") 5 ("2024-01-10") [oldLine]
      = some initData ∧
    sumValues initData.app_cpu_load + sumValues initData.unmapped_cpu_load = 0 ∧
    (([oldLine].map (fun l => (1 / 100 : ℚ) * l.cpu_percentage)).sum = 1 / 10 ∧
      (0 : ℚ) ≠ 1 / 10) := by
  exact ⟨by decide, by decide, by decide, by decide⟩

/-- C3 (amended): the sum of all mapped plus unmapped `cpu_load` values
equals the sum of `cpu_percent / 100` over the input records that lie
within the retention window (records older than `num_days` are skipped
entirely, see C4). -/
theorem claim3_conservation (sm : String → Option String) (rm : List (RePat × String))
    (dc : String) (nd : Int) (today : String) (lines : List Line) (d : Data)
    (h : extract_and_map_data sm rm dc nd today lines = some d) :
    sumValues d.app_cpu_load + sumValues d.unmapped_cpu_load
      = ((lines.filter (fun l => decide (inWindow nd today l))).map
          (fun l => (1 / 100 : ℚ) * l.cpu_percentage)).sum := by
  unfold extract_and_map_data at h
  cases he : extract_lines sm rm dc nd today lines initData with
  | none => rw [he] at h; cases h
  | some d1 =>
    rw [he] at h
    have h' : { d1 with dates := sort_dates d1.dates } = d := by simpa using h
    subst h'
    have := extract_lines_load_sum sm rm dc nd today lines initData d1 he
    simpa [initData, sumValues] using this

/-- Witness for C3: one in-window record with `cpu_percent = 25` and one
out-of-window record; the conservation law applied at this input yields a
total of `1/4`. -/
theorem claim3_witness :
    extract_and_map_data smNone [] ("unknown") 5 ("2024-01-10") [goodLine, oldLine]
      = some goodOut ∧
    sumValues goodOut.app_cpu_load + sumValues goodOut.unmapped_cpu_load = 1 / 4 := by
  have h : extract_and_map_data smNone [] ("unknown") 5 ("2024-01-10")
      [goodLine, oldLine] = some goodOut := by decide
  exact ⟨h, (claim3_conservation smNone [] ("unknown") 5 ("2024-01-10")
    [goodLine, oldLine] goodOut h).trans (by decide)⟩

/-! ### C10: requested-memory strings without an M/G suffix abort the run -/

theorem extract_lines_aborts (sm : String → Option String) (rm : List (RePat × String))
    (dc : String) (nd : Int) (today : String) (l : Line) (post : List Line)
    (hwin : inWindow nd today l) (hp : l.project ≠ "-")
    (hmem : _cast_to_mb l.mem_requested_raw = none) :
    ∀ (pre : List Line) (d : Data),
      extract_lines sm rm dc nd today (pre ++ l :: post) d = none := by
  have hstep : ∀ d, step sm rm dc l d = none := by
    intro d
    have hj : jobFields l = none := by
      simp only [jobFields, if_neg hp, hmem]
      cases parseIntChars l.num_cores_requested_raw.toList <;> rfl
    simp [step, hj]
  intro pre
  induction pre with
  | nil =>
    intro d
    have hw : ¬ difference_days (normalize_time_stamp l.time_stamp) today > nd :=
      not_lt.mpr hwin
    simp only [List.nil_append, extract_lines, if_neg hw, hstep d]
  | cons p pre' ih =>
    intro d
    by_cases hw : difference_days (normalize_time_stamp p.time_stamp) today > nd
    · simp only [List.cons_append, extract_lines, if_pos hw]
      exact ih d
    · simp only [List.cons_append, extract_lines, if_neg hw]
      cases hs : step sm rm dc p d with
      | none => rfl
      | some d1 => exact ih d1

/-- C10: `_cast_to_mb` yields no value for any string that ends in
neither `M` nor `G` (the source writes a diagnostic to stderr and exits
with status 1), and consequently one in-window job-context record whose
requested-memory field lacks the suffix aborts the entire aggregation
pass, wherever it sits in the input. -/
theorem claim10_cast_abort :
    (∀ s : String, endsWithChar s ('M') = false → endsWithChar s ('G') = false →
      _cast_to_mb s = none) ∧
    (∀ (sm : String → Option String) (rm : List (RePat × String)) (dc : String)
      (nd : Int) (today : String) (pre post : List Line) (l : Line),
      inWindow nd today l → l.project ≠ "-" →
      _cast_to_mb l.mem_requested_raw = none →
      extract_and_map_data sm rm dc nd today (pre ++ l :: post) = none) := by
  constructor
  · intro s h1 h2
    simp [_cast_to_mb, h1, h2]
  · intro sm rm dc nd today pre post l hwin hp hmem
    unfold extract_and_map_data
    rw [extract_lines_aborts sm rm dc nd today l post hwin hp hmem pre initData]
    rfl

/-- Witness for C10: the bare number `512` is rejected, and a single
in-window record carrying it as requested memory makes the whole pass
return nothing. -/
theorem claim10_witness :
    _cast_to_mb ("512") = none ∧
    extract_and_map_data smNone [] ("unknown") 5 ("2024-01-10")
      [goodLine, badMemLine] = none := by
  constructor
  · exact claim10_cast_abort.1 ("512") (by decide) (by decide)
  · exact claim10_cast_abort.2 smNone [] ("unknown") 5 ("2024-01-10") [goodLine] []
      badMemLine (by decide) (by decide) (by decide)

/-! ### C6: unmapped routing of default-category records -/

/-- C6: when a processed record's process name classifies to the default
category, all four accumulator updates go to the unmapped namespace keyed
by `(process_name, user)`, the four app-namespace accumulators are left
untouched, and the record's `daily_load` entry for its date is
nevertheless incremented under the default-category app label. -/
theorem claim6_default_routes_unmapped (sm : String → Option String)
    (rm : List (RePat × String)) (dc : String) (l : Line) (d d' : Data)
    (happ : map_process l.process sm rm dc = dc)
    (hstep : step sm rm dc l d = some d') :
    getD d'.unmapped_cpu_load (l.process, l.user) 0
        = getD d.unmapped_cpu_load (l.process, l.user) 0
          + (1 / 100 : ℚ) * l.cpu_percentage ∧
    getD d'.unmapped_cpu_res (l.process, l.user) 0
        = getD d.unmapped_cpu_res (l.process, l.user) 0 + l.num_cores_on_node ∧
    getD d'.unmapped_num_cores_requested (l.process, l.user) sentinel
        = _adjust_min_max
            (getD d.unmapped_num_cores_requested (l.process, l.user) sentinel)
            (reqCores l) ∧
    getD d'.unmapped_mem_requested (l.process, l.user) sentinel
        = _adjust_min_max (getD d.unmapped_mem_requested (l.process, l.user) sentinel)
            (reqMem l) ∧
    d'.app_cpu_load = d.app_cpu_load ∧ d'.app_cpu_res = d.app_cpu_res ∧
    d'.app_num_cores_requested = d.app_num_cores_requested ∧
    d'.app_mem_requested = d.app_mem_requested ∧
    getD (getD d'.daily_cpu_load (normalize_time_stamp l.time_stamp) []) dc 0
        = getD (getD d.daily_cpu_load (normalize_time_stamp l.time_stamp) []) dc 0
          + (1 / 100 : ℚ) * l.cpu_percentage := by
  cases hj : jobFields l with
  | none => simp [step, hj] at hstep
  | some cm =>
    obtain ⟨c, m⟩ := cm
    obtain ⟨hc, hm⟩ := jobFields_eq_req l c m hj
    simp only [step, hj, happ, if_pos rfl, if_true, Option.some.injEq] at hstep
    subst hstep
    subst hc
    subst hm
    refine ⟨?_, ?_, ?_, ?_, rfl, rfl, rfl, rfl, ?_⟩
    · simp [addTo, getD_updD]
    · simp [addToInt, getD_updD]
    · simp [getD_updD]
    · simp [getD_updD]
    · rw [getD_updD]
      simp [addTo, getD_updD, happ]

/-- Witness for C6: `mysteryLine` matches no rule, so its load and
reserved cores land under `("mystery", "bob")` in the unmapped namespace,
the app namespace stays empty, and the daily table books the load under
`unknown`. -/
theorem claim6_witness :
    step smNone [] ("unknown") mysteryLine initData = some mysteryOut ∧
    getD mysteryOut.unmapped_cpu_load ("mystery", "bob") 0
      = getD initData.unmapped_cpu_load ("mystery", "bob") 0
        + (1 / 100 : ℚ) * mysteryLine.cpu_percentage ∧
    mysteryOut.app_cpu_load = initData.app_cpu_load ∧
    getD (getD mysteryOut.daily_cpu_load ("2024-01-09") []) ("unknown") 0
      = getD (getD initData.daily_cpu_load ("2024-01-09") []) ("unknown") 0
        + (1 / 100 : ℚ) * mysteryLine.cpu_percentage := by
  have hs : step smNone [] ("unknown") mysteryLine initData = some mysteryOut := by
    decide
  have h := claim6_default_routes_unmapped smNone [] ("unknown") mysteryLine initData
    mysteryOut (by decide) hs
  exact ⟨hs, h.1, h.2.2.2.2.1, by
    have := h.2.2.2.2.2.2.2.2
    simpa using this⟩

/-! ### C7: zero grand totals crash the report instead of stating no data -/

/-- C7 (code bug): on a run with no data in range the aggregation returns
the empty accumulator state, and `output` on that state divides the
unmapped load and reserve sums by the zero grand totals unconditionally —
a `ZeroDivisionError` (`none` here) instead of the report stating no data
that the specification requires. -/
theorem claim7_zero_total_crashes (dc : String) (cutoff : ℚ) :
    extract_and_map_data smNone [] dc 5 ("2024-01-10") [] = some initData ∧
    sumValues initData.app_cpu_load + sumValues initData.unmapped_cpu_load = 0 ∧
    output initData dc cutoff = none := by
  refine ⟨rfl, by norm_num [initData, sumValues], ?_⟩
  simp [output, initData, _output_section, collapseFirst, collapseFirstInt,
    sortedKeysDesc, sectionApps, sumValues, sumValuesInt, pydiv]

/-! ### C8: the weekly bucket key -/

theorem mem_addVec_self (m : List (String × List ℚ)) (k : String) (n : List ℚ) :
    ∃ e ∈ addVec m k n, e.1 = k := by
  induction m with
  | nil => exact ⟨(k, n), by simp [addVec]⟩
  | cons p rest ih =>
    obtain ⟨k', v⟩ := p
    by_cases h : k = k'
    · subst h
      exact ⟨(k, List.zipWith (fun a b => a + b) v n), by simp [addVec]⟩
    · obtain ⟨e, he, hk⟩ := ih
      exact ⟨e, by simp only [addVec, if_neg h]; exact List.mem_cons_of_mem _ he, hk⟩

theorem mem_addVec_preserve (m : List (String × List ℚ)) (k : String) (n : List ℚ)
    (k0 : String) (h : ∃ e ∈ m, e.1 = k0) : ∃ e ∈ addVec m k n, e.1 = k0 := by
  induction m with
  | nil => simp at h
  | cons p rest ih =>
    obtain ⟨k', v⟩ := p
    obtain ⟨e, he, hk⟩ := h
    rcases List.mem_cons.mp he with rfl | hmem
    · by_cases hkk : k = k'
      · subst hkk
        exact ⟨(k, List.zipWith (fun a b => a + b) v n), by simp [addVec], hk⟩
      · exact ⟨(k', v), by simp [addVec, if_neg hkk], hk⟩
    · by_cases hkk : k = k'
      · subst hkk
        exact ⟨e, by simp only [addVec, if_pos rfl]; exact List.mem_cons_of_mem _ hmem, hk⟩
      · obtain ⟨e1, he1, hk1⟩ := ih ⟨e, hmem, hk⟩
        exact ⟨e1, by simp only [addVec, if_neg hkk]; exact List.mem_cons_of_mem _ he1, hk1⟩

theorem bucketFold_preserves_key (g : String) (daily : List (String × List (String × ℚ)))
    (apps : List String) (k0 : String) :
    ∀ (dates : List String) (sums : List (String × List ℚ)) (totals : List (String × ℚ))
      (out : List (String × List ℚ) × List (String × ℚ)),
      bucketFold g daily apps dates sums totals = some out →
      (∃ e ∈ sums, e.1 = k0) → ∃ e ∈ out.1, e.1 = k0 := by
  intro dates
  induction dates with
  | nil =>
    intro sums totals out h hk
    simp only [bucketFold, Option.some.injEq] at h
    subst h
    exact hk
  | cons dt rest ih =>
    intro sums totals out h hk
    cases hb : bucketKey g dt with
    | none => simp only [bucketFold, hb] at h; exact Option.noConfusion h
    | some key =>
      simp only [bucketFold, hb] at h
      exact ih _ _ _ h (mem_addVec_preserve sums key _ k0 hk)

theorem bucketFold_mem_key (g : String) (daily : List (String × List (String × ℚ)))
    (apps : List String) :
    ∀ (dates : List String) (sums : List (String × List ℚ)) (totals : List (String × ℚ))
      (out : List (String × List ℚ) × List (String × ℚ)),
      bucketFold g daily apps dates sums totals = some out →
      ∀ date ∈ dates, ∃ k, bucketKey g date = some k ∧ ∃ e ∈ out.1, e.1 = k := by
  intro dates
  induction dates with
  | nil => intro _ _ _ _ date hd; cases hd
  | cons dt rest ih =>
    intro sums totals out h date hd
    cases hb : bucketKey g dt with
    | none => simp only [bucketFold, hb] at h; exact Option.noConfusion h
    | some key =>
      simp only [bucketFold, hb] at h
      rcases List.mem_cons.mp hd with rfl | hmem
      · exact ⟨key, hb,
          bucketFold_preserves_key g daily apps key rest _ _ out h
            (mem_addVec_self sums key _)⟩
      · exact ih _ _ out h date hmem

theorem pctAll_preserves_key (totals : List (String × ℚ)) (k0 : String) :
    ∀ (sums psums : List (String × List ℚ)), pctAll totals sums = some psums →
      (∃ e ∈ sums, e.1 = k0) → ∃ e ∈ psums, e.1 = k0 := by
  intro sums
  induction sums with
  | nil => intro psums h hk; simp at hk
  | cons p rest ih =>
    intro psums h hk
    obtain ⟨k, v⟩ := p
    by_cases hz : getD totals k 0 = 0
    · simp only [pctAll, if_pos hz] at h
      exact Option.noConfusion h
    · simp only [pctAll, if_neg hz] at h
      cases hp : pctAll totals rest with
      | none => rw [hp] at h; cases h
      | some r =>
        rw [hp] at h
        simp only [Option.some.injEq] at h
        subst h
        obtain ⟨e, he, hke⟩ := hk
        rcases List.mem_cons.mp he with rfl | hmem
        · exact ⟨(k, v.map (fun e => 100 * e / getD totals k 0)),
            List.mem_cons_self _ _, hke⟩
        · obtain ⟨e1, he1, hk1⟩ := ih r hp ⟨e, hmem, hke⟩
          exact ⟨e1, List.mem_cons_of_mem _ he1, hk1⟩

theorem bucketKey_weekly (date : String) :
    bucketKey ("weekly") date
      = some (String.mk ((splitOnChar ('-') date.toList).headD []) ++ "-"
          ++ toString (isoWeek date)) := by
  have h1 : ¬ (("weekly" : String) = "daily") := by decide
  simp [bucketKey, h1]

/-- Counterexample to C8: for the date 2019-12-30 (ISO year 2020, ISO
week 1) the weekly rollup emits the bucket `2019-1` — calendar year from
the date string with the ISO week number — and no bucket equal to the
spec's ISO-year key `2020-1` exists. -/
theorem claim8_counterexample :
    compute_sums ("weekly") wkData ("unknown") = some (wkApps, wkSums) ∧
    (∃ e ∈ wkSums, e.1 = "2019-1") ∧
    spec_weekly_key ("2019-12-30") = "2020-1" ∧
    (∀ e ∈ wkSums, ¬ (e.1 = "2020-1")) := by
  refine ⟨by decide, by decide, by decide, by decide⟩

/-- C8 (amended): for weekly granularity every date is bucketed under the
calendar year taken from the date string paired with the ISO week number
of the date; in particular, late-December dates belonging to ISO week 1
of the next ISO year stay under their calendar year. -/
theorem claim8_weekly_calendar_year (d : Data) (dc : String) (apps : List String)
    (sums : List (String × List ℚ))
    (h : compute_sums ("weekly") d dc = some (apps, sums)) :
    ∀ date ∈ d.dates,
      ∃ e ∈ sums,
        e.1 = String.mk ((splitOnChar ('-') date.toList).headD []) ++ "-"
          ++ toString (isoWeek date) := by
  intro date hd
  simp only [compute_sums] at h
  split at h
  · exact Option.noConfusion h
  · rename_i s0 t0 hb
    split at h
    · exact Option.noConfusion h
    · rename_i ps hp
      simp only [Option.some.injEq, Prod.mk.injEq] at h
      obtain ⟨ha, hs⟩ := h
      subst hs
      obtain ⟨k, hk, he⟩ :=
        bucketFold_mem_key ("weekly") d.daily_cpu_load
          ((sortedKeysDesc (collapseFirst d.app_cpu_load) 0).take 9 ++ [dc])
          d.dates [] [] (s0, t0) hb date hd
      rw [bucketKey_weekly date] at hk
      cases hk
      exact pctAll_preserves_key t0 _ s0 ps hp he

/-- Witness for C8 (amended): the single date of `wkData` lands in the
bucket `2019-1`. -/
theorem claim8_witness :
    ∃ e ∈ wkSums, e.1 = String.mk ((splitOnChar ('-')
      ("2019-12-30").toList).headD []) ++ "-" ++ toString (isoWeek ("2019-12-30")) := by
  have h : compute_sums ("weekly") wkData ("unknown") = some (wkApps, wkSums) := by
    decide
  exact claim8_weekly_calendar_year wkData ("unknown") wkApps wkSums h
    ("2019-12-30") (by decide)

/-! ### C5: requested-range invariants -/

theorem MMInv_congr (m : List ((String × String) × (Int × Int)))
    (P Q : (String × String) → Prop) (h : ∀ k, P k ↔ Q k) (hm : MMInv m P) :
    MMInv m Q := by
  intro k
  rcases hm k with ⟨hs, hnp⟩ | ⟨hle, hp⟩
  · exact Or.inl ⟨hs, fun hq => hnp ((h k).mpr hq)⟩
  · exact Or.inr ⟨hle, (h k).mp hp⟩

theorem MMInv_export (m : List ((String × String) × (Int × Int)))
    (P Q : (String × String) → Prop) (hiff : ∀ k, P k ↔ Q k) (h : MMInv m P)
    (k : String × String) :
    (Q k → (getD m k sentinel).1 ≤ (getD m k sentinel).2) ∧
    (¬ Q k → getD m k sentinel = sentinel) := by
  rcases h k with ⟨hs, hnp⟩ | ⟨hle, hp⟩
  · exact ⟨fun hq => absurd ((hiff k).mpr hq) hnp, fun _ => hs⟩
  · exact ⟨fun _ => hle, fun hq => absurd ((hiff k).mp hp) hq⟩

theorem MMInv_updD (m : List ((String × String) × (Int × Int)))
    (P : (String × String) → Prop) (k0 : String × String) (v : Option Int)
    (h : MMInv m P) :
    MMInv (updD m k0 sentinel (fun t => _adjust_min_max t v))
      (fun k => P k ∨ (k = k0 ∧ v.isSome = true)) := by
  intro k
  rw [getD_updD]
  by_cases hk : k = k0
  · rw [if_pos hk]
    subst hk
    cases v with
    | none =>
      rcases h k with ⟨hs, hnp⟩ | ⟨hle, hp⟩
      · refine Or.inl ⟨hs, ?_⟩
        rintro (hp' | ⟨_, hv⟩)
        · exact hnp hp'
        · exact Bool.noConfusion hv
      · exact Or.inr ⟨hle, Or.inl hp⟩
    | some w =>
      refine Or.inr ⟨?_, Or.inr ⟨rfl, rfl⟩⟩
      simp only [_adjust_min_max]
      exact le_trans (min_le_right _ _) (le_max_right _ _)
  · rw [if_neg hk]
    rcases h k with ⟨hs, hnp⟩ | ⟨hle, hp⟩
    · refine Or.inl ⟨hs, ?_⟩
      rintro (hp' | ⟨hk', _⟩)
      · exact hnp hp'
      · exact hk hk'
    · exact Or.inr ⟨hle, Or.inl hp⟩

theorem step_app_cores (sm : String → Option String) (rm : List (RePat × String))
    (dc : String) (l : Line) (d d' : Data) (h : step sm rm dc l d = some d') :
    d'.app_num_cores_requested =
      match updAppCores sm rm dc l with
      | none => d.app_num_cores_requested
      | some kv => updD d.app_num_cores_requested kv.1 sentinel
          (fun t => _adjust_min_max t kv.2) := by
  cases hj : jobFields l with
  | none => simp [step, hj] at h
  | some cm =>
    obtain ⟨c, m⟩ := cm
    obtain ⟨hc, hm⟩ := jobFields_eq_req l c m hj
    by_cases happ : map_process l.process sm rm dc = dc
    · simp only [step, hj, happ, if_pos rfl, if_true, Option.some.injEq] at h
      subst h
      simp [updAppCores, appOf, happ]
    · simp only [step, hj, if_neg happ, Option.some.injEq] at h
      subst h
      simp [updAppCores, appOf, happ, ← hc]

theorem step_unmapped_cores (sm : String → Option String) (rm : List (RePat × String))
    (dc : String) (l : Line) (d d' : Data) (h : step sm rm dc l d = some d') :
    d'.unmapped_num_cores_requested =
      match updUnmappedCores sm rm dc l with
      | none => d.unmapped_num_cores_requested
      | some kv => updD d.unmapped_num_cores_requested kv.1 sentinel
          (fun t => _adjust_min_max t kv.2) := by
  cases hj : jobFields l with
  | none => simp [step, hj] at h
  | some cm =>
    obtain ⟨c, m⟩ := cm
    obtain ⟨hc, hm⟩ := jobFields_eq_req l c m hj
    by_cases happ : map_process l.process sm rm dc = dc
    · simp only [step, hj, happ, if_pos rfl, if_true, Option.some.injEq] at h
      subst h
      simp [updUnmappedCores, appOf, happ, ← hc]
    · simp only [step, hj, if_neg happ, Option.some.injEq] at h
      subst h
      simp [updUnmappedCores, appOf, happ]

theorem step_app_mem (sm : String → Option String) (rm : List (RePat × String))
    (dc : String) (l : Line) (d d' : Data) (h : step sm rm dc l d = some d') :
    d'.app_mem_requested =
      match updAppMem sm rm dc l with
      | none => d.app_mem_requested
      | some kv => updD d.app_mem_requested kv.1 sentinel
          (fun t => _adjust_min_max t kv.2) := by
  cases hj : jobFields l with
  | none => simp [step, hj] at h
  | some cm =>
    obtain ⟨c, m⟩ := cm
    obtain ⟨hc, hm⟩ := jobFields_eq_req l c m hj
    by_cases happ : map_process l.process sm rm dc = dc
    · simp only [step, hj, happ, if_pos rfl, if_true, Option.some.injEq] at h
      subst h
      simp [updAppMem, appOf, happ]
    · simp only [step, hj, if_neg happ, Option.some.injEq] at h
      subst h
      simp [updAppMem, appOf, happ, ← hm]

theorem step_unmapped_mem (sm : String → Option String) (rm : List (RePat × String))
    (dc : String) (l : Line) (d d' : Data) (h : step sm rm dc l d = some d') :
    d'.unmapped_mem_requested =
      match updUnmappedMem sm rm dc l with
      | none => d.unmapped_mem_requested
      | some kv => updD d.unmapped_mem_requested kv.1 sentinel
          (fun t => _adjust_min_max t kv.2) := by
  cases hj : jobFields l with
  | none => simp [step, hj] at h
  | some cm =>
    obtain ⟨c, m⟩ := cm
    obtain ⟨hc, hm⟩ := jobFields_eq_req l c m hj
    by_cases happ : map_process l.process sm rm dc = dc
    · simp only [step, hj, happ, if_pos rfl, if_true, Option.some.injEq] at h
      subst h
      simp [updUnmappedMem, appOf, happ, ← hm]
    · simp only [step, hj, if_neg happ, Option.some.injEq] at h
      subst h
      simp [updUnmappedMem, appOf, happ]

theorem minmax_run (sm : String → Option String) (rm : List (RePat × String))
    (dc : String) (nd : Int) (today : String)
    (M : Data → List ((String × String) × (Int × Int)))
    (upd : Line → Option ((String × String) × Option Int))
    (hM : ∀ l d d', step sm rm dc l d = some d' →
      M d' = match upd l with
             | none => M d
             | some kv => updD (M d) kv.1 sentinel (fun t => _adjust_min_max t kv.2)) :
    ∀ (lines : List Line) (d0 d : Data) (P : (String × String) → Prop),
      extract_lines sm rm dc nd today lines d0 = some d → MMInv (M d0) P →
      MMInv (M d) (fun k => P k ∨ ∃ l ∈ lines, inWindow nd today l ∧
        ∃ v : Int, upd l = some (k, some v)) := by
  intro lines
  induction lines with
  | nil =>
    intro d0 d P h hinv
    simp only [extract_lines, Option.some.injEq] at h
    subst h
    exact MMInv_congr _ _ _ (fun k => by simp) hinv
  | cons l rest ih =>
    intro d0 d P h hinv
    by_cases hw : difference_days (normalize_time_stamp l.time_stamp) today > nd
    · simp only [extract_lines, if_pos hw] at h
      refine MMInv_congr _ _ _ (fun k => ?_) (ih d0 d P h hinv)
      constructor
      · rintro (hp | ⟨l', hl', hcond⟩)
        · exact Or.inl hp
        · exact Or.inr ⟨l', List.mem_cons_of_mem _ hl', hcond⟩
      · rintro (hp | ⟨l', hl', hcond⟩)
        · exact Or.inl hp
        · rcases List.mem_cons.mp hl' with rfl | hl''
          · exact absurd hcond.1 (by simpa [inWindow, not_le] using hw)
          · exact Or.inr ⟨l', hl'', hcond⟩
    · simp only [extract_lines, if_neg hw] at h
      cases hs : step sm rm dc l d0 with
      | none => rw [hs] at h; exact Option.noConfusion h
      | some d1 =>
        rw [hs] at h
        have hstep := hM l d0 d1 hs
        cases hu : upd l with
        | none =>
          rw [hu] at hstep
          have hinv1 : MMInv (M d1) P := by rw [hstep]; exact hinv
          refine MMInv_congr _ _ _ (fun k => ?_) (ih d1 d P h hinv1)
          constructor
          · rintro (hp | ⟨l', hl', hcond⟩)
            · exact Or.inl hp
            · exact Or.inr ⟨l', List.mem_cons_of_mem _ hl', hcond⟩
          · rintro (hp | ⟨l', hl', hcond⟩)
            · exact Or.inl hp
            · rcases List.mem_cons.mp hl' with rfl | hl''
              · obtain ⟨_, v, hv⟩ := hcond
                rw [hu] at hv
                exact Option.noConfusion hv
              · exact Or.inr ⟨l', hl'', hcond⟩
        | some kv =>
          obtain ⟨k0, v⟩ := kv
          rw [hu] at hstep
          have hinv1 : MMInv (M d1) (fun k => P k ∨ (k = k0 ∧ v.isSome = true)) := by
            rw [hstep]
            exact MMInv_updD _ _ _ _ hinv
          refine MMInv_congr _ _ _ (fun k => ?_) (ih d1 d _ h hinv1)
          constructor
          · rintro ((hp | ⟨rfl, hv⟩) | ⟨l', hl', hcond⟩)
            · exact Or.inl hp
            · obtain ⟨w, hw'⟩ := Option.isSome_iff_exists.mp hv
              refine Or.inr ⟨l, List.mem_cons_self _ _,
                by simpa [inWindow] using not_lt.mp hw, w, ?_⟩
              rw [hu, hw']
            · exact Or.inr ⟨l', List.mem_cons_of_mem _ hl', hcond⟩
          · rintro (hp | ⟨l', hl', hwin', w, hv⟩)
            · exact Or.inl (Or.inl hp)
            · rcases List.mem_cons.mp hl' with rfl | hl''
              · rw [hu] at hv
                simp only [Option.some.injEq, Prod.mk.injEq] at hv
                obtain ⟨hk, hv'⟩ := hv
                exact Or.inl (Or.inr ⟨hk.symm, by rw [hv']; rfl⟩)
              · exact Or.inr ⟨l', hl'', hwin', w, hv⟩

theorem suppliesAppCores_iff (sm : String → Option String) (rm : List (RePat × String))
    (dc : String) (nd : Int) (today : String) (k : String × String) (l : Line) :
    (inWindow nd today l ∧ ∃ v : Int, updAppCores sm rm dc l = some (k, some v))
      ↔ suppliesAppCores sm rm dc nd today k l := by
  unfold suppliesAppCores updAppCores
  by_cases happ : appOf sm rm dc l = dc
  · simp [happ]
  · simp only [if_neg happ, Option.some.injEq, Prod.mk.injEq]
    constructor
    · rintro ⟨hw, v, hk, hv⟩
      refine ⟨hw, happ, ?_, hk.symm⟩
      rw [hv]
      rfl
    · rintro ⟨hw, _, hsome, hk⟩
      obtain ⟨v, hv⟩ := Option.isSome_iff_exists.mp hsome
      exact ⟨hw, v, hk.symm, hv⟩

theorem suppliesUnmappedCores_iff (sm : String → Option String)
    (rm : List (RePat × String)) (dc : String) (nd : Int) (today : String)
    (k : String × String) (l : Line) :
    (inWindow nd today l ∧ ∃ v : Int, updUnmappedCores sm rm dc l = some (k, some v))
      ↔ suppliesUnmappedCores sm rm dc nd today k l := by
  unfold suppliesUnmappedCores updUnmappedCores
  by_cases happ : appOf sm rm dc l = dc
  · simp only [if_pos happ, Option.some.injEq, Prod.mk.injEq]
    constructor
    · rintro ⟨hw, v, hk, hv⟩
      refine ⟨hw, happ, ?_, hk.symm⟩
      rw [hv]
      rfl
    · rintro ⟨hw, _, hsome, hk⟩
      obtain ⟨v, hv⟩ := Option.isSome_iff_exists.mp hsome
      exact ⟨hw, v, hk.symm, hv⟩
  · simp [happ]

theorem suppliesAppMem_iff (sm : String → Option String) (rm : List (RePat × String))
    (dc : String) (nd : Int) (today : String) (k : String × String) (l : Line) :
    (inWindow nd today l ∧ ∃ v : Int, updAppMem sm rm dc l = some (k, some v))
      ↔ suppliesAppMem sm rm dc nd today k l := by
  unfold suppliesAppMem updAppMem
  by_cases happ : appOf sm rm dc l = dc
  · simp [happ]
  · simp only [if_neg happ, Option.some.injEq, Prod.mk.injEq]
    constructor
    · rintro ⟨hw, v, hk, hv⟩
      refine ⟨hw, happ, ?_, hk.symm⟩
      rw [hv]
      rfl
    · rintro ⟨hw, _, hsome, hk⟩
      obtain ⟨v, hv⟩ := Option.isSome_iff_exists.mp hsome
      exact ⟨hw, v, hk.symm, hv⟩

theorem suppliesUnmappedMem_iff (sm : String → Option String)
    (rm : List (RePat × String)) (dc : String) (nd : Int) (today : String)
    (k : String × String) (l : Line) :
    (inWindow nd today l ∧ ∃ v : Int, updUnmappedMem sm rm dc l = some (k, some v))
      ↔ suppliesUnmappedMem sm rm dc nd today k l := by
  unfold suppliesUnmappedMem updUnmappedMem
  by_cases happ : appOf sm rm dc l = dc
  · simp only [if_pos happ, Option.some.injEq, Prod.mk.injEq]
    constructor
    · rintro ⟨hw, v, hk, hv⟩
      refine ⟨hw, happ, ?_, hk.symm⟩
      rw [hv]
      rfl
    · rintro ⟨hw, _, hsome, hk⟩
      obtain ⟨v, hv⟩ := Option.isSome_iff_exists.mp hsome
      exact ⟨hw, v, hk.symm, hv⟩
  · simp [happ]

/-- C5: for every key of the four requested-range maps, the stored pair
is ordered (`min ≤ max`) as soon as at least one processed record
supplied the corresponding field for that key, the pair still reads as
the untouched seed `(sys.maxsize, -sys.maxsize)` when no record ever
supplied that field, and an update with an absent value leaves any pair
unchanged. -/
theorem claim5_requested_ranges (sm : String → Option String)
    (rm : List (RePat × String)) (dc : String) (nd : Int) (today : String)
    (lines : List Line) (d : Data)
    (h : extract_and_map_data sm rm dc nd today lines = some d) :
    (∀ t : Int × Int, _adjust_min_max t none = t) ∧
    (∀ k : String × String,
      ((∃ l ∈ lines, suppliesAppCores sm rm dc nd today k l) →
        (getD d.app_num_cores_requested k sentinel).1
          ≤ (getD d.app_num_cores_requested k sentinel).2) ∧
      ((¬ ∃ l ∈ lines, suppliesAppCores sm rm dc nd today k l) →
        getD d.app_num_cores_requested k sentinel = sentinel)) ∧
    (∀ k : String × String,
      ((∃ l ∈ lines, suppliesUnmappedCores sm rm dc nd today k l) →
        (getD d.unmapped_num_cores_requested k sentinel).1
          ≤ (getD d.unmapped_num_cores_requested k sentinel).2) ∧
      ((¬ ∃ l ∈ lines, suppliesUnmappedCores sm rm dc nd today k l) →
        getD d.unmapped_num_cores_requested k sentinel = sentinel)) ∧
    (∀ k : String × String,
      ((∃ l ∈ lines, suppliesAppMem sm rm dc nd today k l) →
        (getD d.app_mem_requested k sentinel).1
          ≤ (getD d.app_mem_requested k sentinel).2) ∧
      ((¬ ∃ l ∈ lines, suppliesAppMem sm rm dc nd today k l) →
        getD d.app_mem_requested k sentinel = sentinel)) ∧
    (∀ k : String × String,
      ((∃ l ∈ lines, suppliesUnmappedMem sm rm dc nd today k l) →
        (getD d.unmapped_mem_requested k sentinel).1
          ≤ (getD d.unmapped_mem_requested k sentinel).2) ∧
      ((¬ ∃ l ∈ lines, suppliesUnmappedMem sm rm dc nd today k l) →
        getD d.unmapped_mem_requested k sentinel = sentinel)) := by
  unfold extract_and_map_data at h
  cases he : extract_lines sm rm dc nd today lines initData with
  | none => rw [he] at h; cases h
  | some d1 =>
    rw [he] at h
    have h' : { d1 with dates := sort_dates d1.dates } = d := by simpa using h
    subst h'
    have hinit : MMInv ([] : List ((String × String) × (Int × Int))) (fun _ => False) :=
      fun k => Or.inl ⟨rfl, fun f => f⟩
    refine ⟨fun t => rfl, ?_, ?_, ?_, ?_⟩
    · exact MMInv_export _ _ _
        (fun k => by
          rw [false_or]
          exact ⟨fun ⟨l, hl, hc⟩ => ⟨l, hl,
              (suppliesAppCores_iff sm rm dc nd today k l).mp hc⟩,
            fun ⟨l, hl, hc⟩ => ⟨l, hl,
              (suppliesAppCores_iff sm rm dc nd today k l).mpr hc⟩⟩)
        (minmax_run sm rm dc nd today (fun x => x.app_num_cores_requested)
          (updAppCores sm rm dc)
          (fun l a b hb => step_app_cores sm rm dc l a b hb)
          lines initData d1 (fun _ => False) he hinit)
    · exact MMInv_export _ _ _
        (fun k => by
          rw [false_or]
          exact ⟨fun ⟨l, hl, hc⟩ => ⟨l, hl,
              (suppliesUnmappedCores_iff sm rm dc nd today k l).mp hc⟩,
            fun ⟨l, hl, hc⟩ => ⟨l, hl,
              (suppliesUnmappedCores_iff sm rm dc nd today k l).mpr hc⟩⟩)
        (minmax_run sm rm dc nd today (fun x => x.unmapped_num_cores_requested)
          (updUnmappedCores sm rm dc)
          (fun l a b hb => step_unmapped_cores sm rm dc l a b hb)
          lines initData d1 (fun _ => False) he hinit)
    · exact MMInv_export _ _ _
        (fun k => by
          rw [false_or]
          exact ⟨fun ⟨l, hl, hc⟩ => ⟨l, hl,
              (suppliesAppMem_iff sm rm dc nd today k l).mp hc⟩,
            fun ⟨l, hl, hc⟩ => ⟨l, hl,
              (suppliesAppMem_iff sm rm dc nd today k l).mpr hc⟩⟩)
        (minmax_run sm rm dc nd today (fun x => x.app_mem_requested)
          (updAppMem sm rm dc)
          (fun l a b hb => step_app_mem sm rm dc l a b hb)
          lines initData d1 (fun _ => False) he hinit)
    · exact MMInv_export _ _ _
        (fun k => by
          rw [false_or]
          exact ⟨fun ⟨l, hl, hc⟩ => ⟨l, hl,
              (suppliesUnmappedMem_iff sm rm dc nd today k l).mp hc⟩,
            fun ⟨l, hl, hc⟩ => ⟨l, hl,
              (suppliesUnmappedMem_iff sm rm dc nd today k l).mpr hc⟩⟩)
        (minmax_run sm rm dc nd today (fun x => x.unmapped_mem_requested)
          (updUnmappedMem sm rm dc)
          (fun l a b hb => step_unmapped_mem sm rm dc l a b hb)
          lines initData d1 (fun _ => False) he hinit)

/-- Witness for C5: `jobLine` supplies 4 cores and 512 MB for
`("mystery", "bob")`, whose pairs are therefore ordered, while a key
never supplied still reads the sentinel seed. -/
theorem claim5_witness :
    (getD jobOut.unmapped_num_cores_requested ("mystery", "bob") sentinel).1
      ≤ (getD jobOut.unmapped_num_cores_requested ("mystery", "bob") sentinel).2 ∧
    (getD jobOut.unmapped_mem_requested ("mystery", "bob") sentinel).1
      ≤ (getD jobOut.unmapped_mem_requested ("mystery", "bob") sentinel).2 ∧
    getD jobOut.app_num_cores_requested ("mystery", "bob") sentinel = sentinel ∧
    getD jobOut.unmapped_mem_requested ("ghost", "eve") sentinel = sentinel := by
  have h : extract_and_map_data smNone [] ("unknown") 5 ("2024-01-10") [jobLine]
      = some jobOut := by decide
  have c5 := claim5_requested_ranges smNone [] ("unknown") 5 ("2024-01-10")
    [jobLine] jobOut h
  refine ⟨(c5.2.2.1 ("mystery", "bob")).1 (by decide),
    (c5.2.2.2.2 ("mystery", "bob")).1 (by decide),
    (c5.2.1 ("mystery", "bob")).2 (by decide),
    (c5.2.2.2.2 ("ghost", "eve")).2 (by decide)⟩

/-! ### C9: per-bucket percentages — map arithmetic lemmas -/

theorem getD_cases {K V : Type} [DecidableEq K] (m : List (K × V)) (k : K) (d : V) :
    getD m k d = d ∨ ∃ v, (k, v) ∈ m ∧ getD m k d = v := by
  induction m with
  | nil => exact Or.inl rfl
  | cons p rest ih =>
    obtain ⟨k0, v0⟩ := p
    by_cases hk : k = k0
    · subst hk
      exact Or.inr ⟨v0, List.mem_cons_self _ _, by simp [getD]⟩
    · rcases ih with h | ⟨v, hv, h⟩
      · exact Or.inl (by simp [getD, hk, h])
      · exact Or.inr ⟨v, List.mem_cons_of_mem _ hv, by simp [getD, hk, h]⟩

theorem getD_of_not_mem {K V : Type} [DecidableEq K] (m : List (K × V)) (k : K) (d : V)
    (h : ¬ ∃ v, (k, v) ∈ m) : getD m k d = d := by
  induction m with
  | nil => rfl
  | cons p rest ih =>
    obtain ⟨k0, v0⟩ := p
    by_cases hk : k = k0
    · exact absurd ⟨v0, by rw [hk]; exact List.mem_cons_self _ _⟩ h
    · simp only [getD, if_neg hk]
      exact ih (fun ⟨v, hv⟩ => h ⟨v, List.mem_cons_of_mem _ hv⟩)

theorem sumValues_nonneg {K : Type} (m : List (K × ℚ)) (h : ∀ p ∈ m, 0 ≤ p.2) :
    0 ≤ sumValues m := by
  refine List.sum_nonneg ?_
  intro x hx
  obtain ⟨p, hp, rfl⟩ := List.mem_map.mp hx
  exact h p hp

theorem getD_nonneg {K : Type} [DecidableEq K] (m : List (K × ℚ)) (k : K)
    (h : ∀ p ∈ m, 0 ≤ p.2) : 0 ≤ getD m k 0 := by
  rcases getD_cases m k 0 with h0 | ⟨v, hv, h0⟩
  · rw [h0]
  · rw [h0]
    exact h (k, v) hv

theorem getD_le_sumValues {K : Type} [DecidableEq K] (m : List (K × ℚ)) (k : K)
    (h : ∀ p ∈ m, 0 ≤ p.2) : getD m k 0 ≤ sumValues m := by
  induction m with
  | nil => simp [getD, sumValues]
  | cons p rest ih =>
    obtain ⟨k0, v0⟩ := p
    have hrest : ∀ p ∈ rest, 0 ≤ p.2 := fun p hp => h p (List.mem_cons_of_mem _ hp)
    have hsum : 0 ≤ sumValues rest := sumValues_nonneg rest hrest
    have hv0 : 0 ≤ v0 := h (k0, v0) (List.mem_cons_self _ _)
    have hsum' : 0 ≤ (rest.map (fun p => p.2)).sum := hsum
    by_cases hk : k = k0
    · simp only [getD, if_pos hk, sumValues, List.map_cons, List.sum_cons]
      linarith
    · simp only [getD, if_neg hk, sumValues, List.map_cons, List.sum_cons]
      have hih := ih hrest
      simp only [sumValues] at hih
      linarith

theorem mem_of_mem_eraseKey {K : Type} [DecidableEq K] (m : List (K × ℚ)) (k : K) :
    ∀ p ∈ eraseKey m k, p ∈ m := by
  induction m with
  | nil => intro p hp; cases hp
  | cons q rest ih =>
    obtain ⟨k0, v0⟩ := q
    intro p hp
    by_cases hk : k = k0
    · simp only [eraseKey, if_pos hk] at hp
      exact List.mem_cons_of_mem _ hp
    · simp only [eraseKey, if_neg hk] at hp
      rcases List.mem_cons.mp hp with rfl | hmem
      · exact List.mem_cons_self _ _
      · exact List.mem_cons_of_mem _ (ih p hmem)

theorem getD_eraseKey_ne {K : Type} [DecidableEq K] (m : List (K × ℚ)) (k k' : K)
    (h : k' ≠ k) : getD (eraseKey m k) k' 0 = getD m k' 0 := by
  induction m with
  | nil => rfl
  | cons q rest ih =>
    obtain ⟨k0, v0⟩ := q
    by_cases hk : k = k0
    · subst hk
      simp [eraseKey, getD, if_neg h]
    · by_cases hk' : k' = k0
      · simp [eraseKey, if_neg hk, getD, if_pos hk']
      · simp [eraseKey, if_neg hk, getD, if_neg hk', ih]

theorem sumValues_eraseKey {K : Type} [DecidableEq K] (m : List (K × ℚ)) (k : K)
    (h : ∃ v, (k, v) ∈ m) : sumValues m = getD m k 0 + sumValues (eraseKey m k) := by
  induction m with
  | nil => obtain ⟨v, hv⟩ := h; cases hv
  | cons q rest ih =>
    obtain ⟨k0, v0⟩ := q
    by_cases hk : k = k0
    · simp only [eraseKey, if_pos hk, getD, sumValues, List.map_cons, List.sum_cons]
    · have h' : ∃ v, (k, v) ∈ rest := by
        obtain ⟨v, hv⟩ := h
        rcases List.mem_cons.mp hv with heq | hmem
        · exact absurd (congrArg Prod.fst heq) hk
        · exact ⟨v, hmem⟩
      simp only [eraseKey, if_neg hk, getD, sumValues, List.map_cons, List.sum_cons]
      have := ih h'
      simp only [sumValues] at this
      rw [this]
      ring

theorem sum_map_getD_le (apps : List String) :
    ∀ m : List (String × ℚ), apps.Nodup → (∀ p ∈ m, 0 ≤ p.2) →
      (apps.map (fun a => getD m a 0)).sum ≤ sumValues m := by
  induction apps with
  | nil => intro m _ hnn; simpa using sumValues_nonneg m hnn
  | cons a rest ih =>
    intro m hnd hnn
    obtain ⟨ha, hrest⟩ := List.nodup_cons.mp hnd
    by_cases hm : ∃ v, (a, v) ∈ m
    · have herase := sumValues_eraseKey m a hm
      have hnn' : ∀ p ∈ eraseKey m a, 0 ≤ p.2 :=
        fun p hp => hnn p (mem_of_mem_eraseKey m a p hp)
      have hmap : (rest.map (fun b => getD m b 0)).sum
          = (rest.map (fun b => getD (eraseKey m a) b 0)).sum := by
        refine congrArg List.sum (List.map_congr_left ?_)
        intro b hb
        exact (getD_eraseKey_ne m a b (fun hba => ha (hba ▸ hb))).symm
      simp only [List.map_cons, List.sum_cons]
      rw [hmap, herase]
      exact add_le_add_left (ih (eraseKey m a) hrest hnn') _
    · have h0 : getD m a 0 = 0 := getD_of_not_mem m a 0 hm
      simp only [List.map_cons, List.sum_cons, h0, zero_add]
      exact ih m hrest hnn

theorem sum_map_getD_lt (m : List (String × ℚ)) (apps : List String) (b : String)
    (hnd : apps.Nodup) (hb : b ∉ apps) (hnn : ∀ p ∈ m, 0 ≤ p.2)
    (hpos : 0 < getD m b 0) :
    (apps.map (fun a => getD m a 0)).sum < sumValues m := by
  have h := sum_map_getD_le (b :: apps) m (List.nodup_cons.mpr ⟨hb, hnd⟩) hnn
  simp only [List.map_cons, List.sum_cons] at h
  linarith

theorem sum_zipWith_le (v : List ℚ) :
    ∀ n : List ℚ, (∀ x ∈ v, 0 ≤ x) → (∀ x ∈ n, 0 ≤ x) →
      (List.zipWith (fun a b => a + b) v n).sum ≤ v.sum + n.sum := by
  induction v with
  | nil =>
    intro n _ hn
    have := List.sum_nonneg hn
    simp only [List.zipWith_nil_left, List.sum_nil, zero_add]
    exact this
  | cons a v' ih =>
    intro n hv hn
    cases n with
    | nil =>
      simp only [List.zipWith_nil_right, List.sum_nil, List.sum_cons, add_zero]
      have h1 := List.sum_nonneg (fun x hx => hv x (List.mem_cons_of_mem _ hx))
      have h2 := hv a (List.mem_cons_self _ _)
      linarith
    | cons b n' =>
      simp only [List.zipWith_cons_cons, List.sum_cons]
      have h1 := ih n' (fun x hx => hv x (List.mem_cons_of_mem _ hx))
        (fun x hx => hn x (List.mem_cons_of_mem _ hx))
      linarith

theorem zipWith_add_nonneg (v : List ℚ) :
    ∀ n : List ℚ, (∀ x ∈ v, 0 ≤ x) → (∀ x ∈ n, 0 ≤ x) →
      ∀ x ∈ List.zipWith (fun a b => a + b) v n, 0 ≤ x := by
  induction v with
  | nil => intro n _ _ x hx; cases hx
  | cons a v' ih =>
    intro n hv hn
    cases n with
    | nil => intro x hx; cases hx
    | cons b n' =>
      intro x hx
      rcases List.mem_cons.mp hx with rfl | hmem
      · have h1 := hv a (List.mem_cons_self _ _)
        have h2 := hn b (List.mem_cons_self _ _)
        simpa using by linarith
      · exact ih n' (fun y hy => hv y (List.mem_cons_of_mem _ hy))
          (fun y hy => hn y (List.mem_cons_of_mem _ hy)) x hmem

theorem sum_map_pct (v : List ℚ) (T : ℚ) :
    (v.map (fun e => 100 * e / T)).sum = 100 * v.sum / T := by
  induction v with
  | nil => simp
  | cons a v' ih =>
    simp only [List.map_cons, List.sum_cons, ih]
    ring

/-! ### C9: keys of the selected columns -/

theorem mem_updD_cases {K V : Type} [DecidableEq K] (m : List (K × V)) (k : K)
    (dflt : V) (f : V → V) :
    ∀ p ∈ updD m k dflt f,
      p ∈ m ∨ (∃ v0, (k, v0) ∈ m ∧ p = (k, f v0)) ∨ p = (k, f dflt) := by
  induction m with
  | nil =>
    intro p hp
    simp only [updD, List.mem_singleton] at hp
    exact Or.inr (Or.inr hp)
  | cons q rest ih =>
    obtain ⟨k0, v0⟩ := q
    intro p hp
    by_cases hk : k = k0
    · subst hk
      simp only [updD, if_pos rfl] at hp
      rcases List.mem_cons.mp hp with rfl | hmem
      · exact Or.inr (Or.inl ⟨v0, List.mem_cons_self _ _, rfl⟩)
      · exact Or.inl (List.mem_cons_of_mem _ hmem)
    · simp only [updD, if_neg hk] at hp
      rcases List.mem_cons.mp hp with rfl | hmem
      · exact Or.inl (List.mem_cons_self _ _)
      · rcases ih p hmem with h | ⟨v1, hv1, hp'⟩ | hp'
        · exact Or.inl (List.mem_cons_of_mem _ h)
        · exact Or.inr (Or.inl ⟨v1, List.mem_cons_of_mem _ hv1, hp'⟩)
        · exact Or.inr (Or.inr hp')

theorem keys_updD_cases {K V : Type} [DecidableEq K] (m : List (K × V)) (k : K)
    (dflt : V) (f : V → V) :
    ∀ x ∈ (updD m k dflt f).map (fun p => p.1),
      x ∈ m.map (fun p => p.1) ∨ x = k := by
  intro x hx
  obtain ⟨p, hp, rfl⟩ := List.mem_map.mp hx
  rcases mem_updD_cases m k dflt f p hp with h | ⟨v0, hv0, rfl⟩ | rfl
  · exact Or.inl (List.mem_map.mpr ⟨p, h, rfl⟩)
  · exact Or.inr rfl
  · exact Or.inr rfl

theorem keys_updD_nodup {K V : Type} [DecidableEq K] (m : List (K × V)) (k : K)
    (dflt : V) (f : V → V) (h : (m.map (fun p => p.1)).Nodup) :
    ((updD m k dflt f).map (fun p => p.1)).Nodup := by
  induction m with
  | nil => simp [updD]
  | cons q rest ih =>
    obtain ⟨k0, v0⟩ := q
    simp only [List.map_cons, List.nodup_cons] at h
    obtain ⟨hk0, hrest⟩ := h
    by_cases hk : k = k0
    · simp only [updD, if_pos hk, List.map_cons, List.nodup_cons]
      exact ⟨hk0, hrest⟩
    · simp only [updD, if_neg hk, List.map_cons, List.nodup_cons]
      refine ⟨?_, ih hrest⟩
      intro hmem
      rcases keys_updD_cases rest k dflt f k0 hmem with h | rfl
      · exact hk0 h
      · exact hk rfl

theorem foldl_addTo_keys_nodup (m : List ((String × String) × ℚ)) :
    ∀ acc : List (String × ℚ), ((acc.map (fun p => p.1)).Nodup) →
      (((m.foldl (fun acc kv => addTo acc kv.1.1 kv.2) acc)).map (fun p => p.1)).Nodup := by
  induction m with
  | nil => intro acc h; exact h
  | cons e rest ih =>
    intro acc h
    exact ih _ (keys_updD_nodup acc e.1.1 0 _ h)

theorem foldl_addTo_keys_from (m : List ((String × String) × ℚ)) :
    ∀ (acc : List (String × ℚ)) (x : String),
      x ∈ ((m.foldl (fun acc kv => addTo acc kv.1.1 kv.2) acc)).map (fun p => p.1) →
      x ∈ acc.map (fun p => p.1) ∨ ∃ kv ∈ m, kv.1.1 = x := by
  induction m with
  | nil => intro acc x h; exact Or.inl h
  | cons e rest ih =>
    intro acc x h
    rcases ih _ x h with h' | ⟨kv, hkv, hx⟩
    · rcases keys_updD_cases acc e.1.1 0 _ x h' with h'' | rfl
      · exact Or.inl h''
      · exact Or.inr ⟨e, List.mem_cons_self _ _, rfl⟩
    · exact Or.inr ⟨kv, List.mem_cons_of_mem _ hkv, hx⟩

theorem insertDescBy_perm {A B : Type} [LinearOrder B] (val : A → B) (x : A) :
    ∀ l : List A, (insertDescBy val x l).Perm (x :: l) := by
  intro l
  induction l with
  | nil => exact List.Perm.refl _
  | cons y rest ih =>
    by_cases h : val x > val y
    · simp only [insertDescBy, if_pos h]
      exact List.Perm.refl _
    · simp only [insertDescBy, if_neg h]
      exact (ih.cons y).trans (List.Perm.swap x y rest)

theorem foldr_insertDescBy_perm {A B : Type} [LinearOrder B] (val : A → B) :
    ∀ l : List A, (l.foldr (insertDescBy val) []).Perm l := by
  intro l
  induction l with
  | nil => exact List.Perm.refl _
  | cons x rest ih =>
    simp only [List.foldr_cons]
    exact (insertDescBy_perm val x _).trans (ih.cons x)

theorem sortedKeysDesc_perm {K B : Type} [DecidableEq K] [LinearOrder B]
    (m : List (K × B)) (d : B) :
    (sortedKeysDesc m d).Perm (m.map (fun p => p.1)) :=
  foldr_insertDescBy_perm _ _

theorem apps_nodup (m : List ((String × String) × ℚ)) (dc : String)
    (hkeys : ∀ kv ∈ m, ¬ kv.1.1 = dc) :
    ((sortedKeysDesc (collapseFirst m) 0).take 9 ++ [dc]).Nodup := by
  have hperm := sortedKeysDesc_perm (collapseFirst m) (0 : ℚ)
  have hkn : ((collapseFirst m).map (fun p => p.1)).Nodup :=
    foldl_addTo_keys_nodup m [] (by simp)
  have hs : (sortedKeysDesc (collapseFirst m) 0).Nodup := hperm.nodup_iff.mpr hkn
  have htake : ((sortedKeysDesc (collapseFirst m) 0).take 9).Nodup :=
    List.Nodup.sublist (List.take_sublist 9 _) hs
  refine List.Nodup.append htake (List.nodup_singleton dc) ?_
  intro a ha hb
  rw [List.mem_singleton] at hb
  subst hb
  have h1 : a ∈ sortedKeysDesc (collapseFirst m) 0 := List.mem_of_mem_take ha
  have h2 : a ∈ (collapseFirst m).map (fun p => p.1) := hperm.mem_iff.mp h1
  rcases foldl_addTo_keys_from m [] a h2 with h3 | ⟨kv, hkv, hx⟩
  · simp at h3
  · exact hkeys kv hkv hx

/-! ### C9: invariants of the aggregation pass -/

theorem values_addTo_nonneg {K : Type} [DecidableEq K] (m : List (K × ℚ)) (k : K)
    (v : ℚ) (hm : ∀ p ∈ m, 0 ≤ p.2) (hv : 0 ≤ v) :
    ∀ p ∈ addTo m k v, 0 ≤ p.2 := by
  intro p hp
  rcases mem_updD_cases m k 0 (fun x => x + v) p hp with h | ⟨v0, hv0, rfl⟩ | rfl
  · exact hm p h
  · have := hm (k, v0) hv0
    simpa using by linarith
  · simpa using hv

theorem step_daily_nonneg (sm : String → Option String) (rm : List (RePat × String))
    (dc : String) (l : Line) (d d' : Data) (h : step sm rm dc l d = some d')
    (hcpu : 0 ≤ l.cpu_percentage)
    (hd : ∀ de ∈ d.daily_cpu_load, ∀ iv ∈ de.2, 0 ≤ iv.2) :
    ∀ de ∈ d'.daily_cpu_load, ∀ iv ∈ de.2, 0 ≤ iv.2 := by
  have hload : 0 ≤ (1 / 100 : ℚ) * l.cpu_percentage := by
    have : (0 : ℚ) ≤ 1 / 100 := by norm_num
    exact mul_nonneg this hcpu
  cases hj : jobFields l with
  | none => simp [step, hj] at h
  | some cm =>
    obtain ⟨c, m⟩ := cm
    have hgen : ∀ de ∈ updD d.daily_cpu_load (normalize_time_stamp l.time_stamp) []
        (fun mm => addTo mm (map_process l.process sm rm dc)
          ((1 / 100 : ℚ) * l.cpu_percentage)), ∀ iv ∈ de.2, 0 ≤ iv.2 := by
      intro de hde
      rcases mem_updD_cases d.daily_cpu_load (normalize_time_stamp l.time_stamp) []
        _ de hde with h1 | ⟨v0, hv0, rfl⟩ | rfl
      · exact hd de h1
      · exact values_addTo_nonneg v0 _ _ (hd _ hv0) hload
      · exact values_addTo_nonneg [] _ _ (by intro p hp; cases hp) hload
    by_cases happ : map_process l.process sm rm dc = dc
    · simp only [step, hj, happ, if_pos rfl, if_true, Option.some.injEq] at h
      subst h
      simpa [happ] using hgen
    · simp only [step, hj, if_neg happ, Option.some.injEq] at h
      subst h
      exact hgen

theorem extract_daily_nonneg (sm : String → Option String) (rm : List (RePat × String))
    (dc : String) (nd : Int) (today : String) :
    ∀ (lines : List Line) (d0 d : Data),
      extract_lines sm rm dc nd today lines d0 = some d →
      (∀ l ∈ lines, 0 ≤ l.cpu_percentage) →
      (∀ de ∈ d0.daily_cpu_load, ∀ iv ∈ de.2, 0 ≤ iv.2) →
      ∀ de ∈ d.daily_cpu_load, ∀ iv ∈ de.2, 0 ≤ iv.2 := by
  intro lines
  induction lines with
  | nil =>
    intro d0 d h _ h0
    simp only [extract_lines, Option.some.injEq] at h
    subst h
    exact h0
  | cons l rest ih =>
    intro d0 d h hcpu h0
    by_cases hw : difference_days (normalize_time_stamp l.time_stamp) today > nd
    · simp only [extract_lines, if_pos hw] at h
      exact ih d0 d h (fun x hx => hcpu x (List.mem_cons_of_mem _ hx)) h0
    · simp only [extract_lines, if_neg hw] at h
      cases hs : step sm rm dc l d0 with
      | none => rw [hs] at h; exact Option.noConfusion h
      | some d1 =>
        rw [hs] at h
        exact ih d1 d h (fun x hx => hcpu x (List.mem_cons_of_mem _ hx))
          (step_daily_nonneg sm rm dc l d0 d1 hs
            (hcpu l (List.mem_cons_self _ _)) h0)

theorem step_app_keys (sm : String → Option String) (rm : List (RePat × String))
    (dc : String) (l : Line) (d d' : Data) (h : step sm rm dc l d = some d')
    (hd : ∀ kv ∈ d.app_cpu_load, ¬ kv.1.1 = dc) :
    ∀ kv ∈ d'.app_cpu_load, ¬ kv.1.1 = dc := by
  cases hj : jobFields l with
  | none => simp [step, hj] at h
  | some cm =>
    obtain ⟨c, m⟩ := cm
    by_cases happ : map_process l.process sm rm dc = dc
    · simp only [step, hj, happ, if_pos rfl, if_true, Option.some.injEq] at h
      subst h
      exact hd
    · simp only [step, hj, if_neg happ, Option.some.injEq] at h
      subst h
      intro kv hkv
      rcases mem_updD_cases d.app_cpu_load (map_process l.process sm rm dc, l.user) 0
        _ kv hkv with h1 | ⟨v0, hv0, rfl⟩ | rfl
      · exact hd kv h1
      · exact happ
      · exact happ

theorem extract_app_keys (sm : String → Option String) (rm : List (RePat × String))
    (dc : String) (nd : Int) (today : String) :
    ∀ (lines : List Line) (d0 d : Data),
      extract_lines sm rm dc nd today lines d0 = some d →
      (∀ kv ∈ d0.app_cpu_load, ¬ kv.1.1 = dc) →
      ∀ kv ∈ d.app_cpu_load, ¬ kv.1.1 = dc := by
  intro lines
  induction lines with
  | nil =>
    intro d0 d h h0
    simp only [extract_lines, Option.some.injEq] at h
    subst h
    exact h0
  | cons l rest ih =>
    intro d0 d h h0
    by_cases hw : difference_days (normalize_time_stamp l.time_stamp) today > nd
    · simp only [extract_lines, if_pos hw] at h
      exact ih d0 d h h0
    · simp only [extract_lines, if_neg hw] at h
      cases hs : step sm rm dc l d0 with
      | none => rw [hs] at h; exact Option.noConfusion h
      | some d1 =>
        rw [hs] at h
        exact ih d1 d h (step_app_keys sm rm dc l d0 d1 hs h0)

/-! ### C9: the bucket fold of `compute_sums` -/

theorem getD_addTo {K : Type} [DecidableEq K] (m : List (K × ℚ)) (k x : K) (v : ℚ) :
    getD (addTo m k v) x 0 = if x = k then getD m k 0 + v else getD m x 0 := by
  simp [addTo, getD_updD]

theorem mem_addVec_cases (m : List (String × List ℚ)) (k : String) (n : List ℚ) :
    ∀ e ∈ addVec m k n,
      e ∈ m ∨ (∃ v, (k, v) ∈ m ∧ e = (k, List.zipWith (fun a b => a + b) v n)) ∨
        (e = (k, n) ∧ ¬ ∃ v, (k, v) ∈ m) := by
  induction m with
  | nil =>
    intro e he
    simp only [addVec, List.mem_singleton] at he
    exact Or.inr (Or.inr ⟨he, by simp⟩)
  | cons q rest ih =>
    obtain ⟨k0, v0⟩ := q
    intro e he
    by_cases hk : k = k0
    · subst hk
      simp only [addVec, if_pos rfl] at he
      rcases List.mem_cons.mp he with rfl | hmem
      · exact Or.inr (Or.inl ⟨v0, List.mem_cons_self _ _, rfl⟩)
      · exact Or.inl (List.mem_cons_of_mem _ hmem)
    · simp only [addVec, if_neg hk] at he
      rcases List.mem_cons.mp he with rfl | hmem
      · exact Or.inl (List.mem_cons_self _ _)
      · rcases ih e hmem with h | ⟨v, hv, he'⟩ | ⟨he', hno⟩
        · exact Or.inl (List.mem_cons_of_mem _ h)
        · exact Or.inr (Or.inl ⟨v, List.mem_cons_of_mem _ hv, he'⟩)
        · refine Or.inr (Or.inr ⟨he', ?_⟩)
          rintro ⟨v, hv⟩
          rcases List.mem_cons.mp hv with heq | hmem'
          · exact hk (congrArg Prod.fst heq)
          · exact hno ⟨v, hmem'⟩

theorem bucketFold_inv (g : String) (daily : List (String × List (String × ℚ)))
    (apps : List String)
    (hdn : ∀ de ∈ daily, ∀ iv ∈ de.2, 0 ≤ iv.2) (hnd : apps.Nodup) :
    ∀ (dates : List String) (sums : List (String × List ℚ))
      (totals : List (String × ℚ))
      (out : List (String × List ℚ) × List (String × ℚ)) (Q : String → Prop),
      bucketFold g daily apps dates sums totals = some out →
      (∀ e ∈ sums, e.2.sum ≤ getD totals e.1 0) →
      (∀ k, 0 ≤ getD totals k 0) →
      (∀ e ∈ sums, ∀ x ∈ e.2, 0 ≤ x) →
      (∀ e ∈ sums, Q e.1 → e.2.sum < getD totals e.1 0) →
      (∀ k, Q k → ∃ e ∈ sums, e.1 = k) →
      (∀ e ∈ out.1, e.2.sum ≤ getD out.2 e.1 0) ∧
      (∀ k, 0 ≤ getD out.2 k 0) ∧
      (∀ e ∈ out.1,
        (Q e.1 ∨ ∃ date ∈ dates, bucketKey g date = some e.1 ∧
          ∃ b, b ∉ apps ∧ 0 < getD (getD daily date []) b 0) →
        e.2.sum < getD out.2 e.1 0) := by
  intro dates
  induction dates with
  | nil =>
    intro sums totals out Q h hI1 hI2 hI3 hI4 hI5
    simp only [bucketFold, Option.some.injEq] at h
    subst h
    refine ⟨hI1, hI2, ?_⟩
    intro e he hq
    rcases hq with hq | ⟨date, hd, _⟩
    · exact hI4 e he hq
    · cases hd
  | cons dt rest ih =>
    intro sums totals out Q h hI1 hI2 hI3 hI4 hI5
    cases hb : bucketKey g dt with
    | none => simp only [bucketFold, hb] at h; exact Option.noConfusion h
    | some k0 =>
      simp only [bucketFold, hb] at h
      have hinner_nn : ∀ p ∈ getD daily dt [], 0 ≤ p.2 := by
        rcases getD_cases daily dt [] with hc | ⟨v, hv, hc⟩
        · rw [hc]; intro p hp; cases hp
        · rw [hc]; intro p hp; exact hdn (dt, v) hv p hp
      have hn_nn : ∀ x ∈ apps.map (fun a => getD (getD daily dt []) a 0), 0 ≤ x := by
        intro x hx
        obtain ⟨a, _, rfl⟩ := List.mem_map.mp hx
        exact getD_nonneg _ a hinner_nn
      have hn_sum : (apps.map (fun a => getD (getD daily dt []) a 0)).sum
          ≤ sumValues (getD daily dt []) := sum_map_getD_le apps _ hnd hinner_nn
      have hT_nn : 0 ≤ sumValues (getD daily dt []) := sumValues_nonneg _ hinner_nn
      have hJ1 : ∀ e ∈ addVec sums k0 (apps.map (fun a => getD (getD daily dt []) a 0)),
          e.2.sum ≤ getD (addTo totals k0 (sumValues (getD daily dt []))) e.1 0 := by
        intro e he
        rcases mem_addVec_cases sums k0 _ e he with hmem | ⟨v, hv, rfl⟩ | ⟨rfl, _⟩
        · have hold := hI1 e hmem
          rw [getD_addTo]
          by_cases hek : e.1 = k0
          · rw [if_pos hek]
            rw [hek] at hold
            linarith
          · rw [if_neg hek]
            exact hold
        · have hv_nn : ∀ x ∈ v, 0 ≤ x := hI3 (k0, v) hv
          have hzip := sum_zipWith_le v _ hv_nn hn_nn
          have hold := hI1 (k0, v) hv
          rw [getD_addTo]
          dsimp only at hold ⊢
          rw [if_pos rfl]
          linarith
        · rw [getD_addTo]
          have h2 := hI2 k0
          dsimp only
          rw [if_pos rfl]
          linarith
      have hJ2 : ∀ k, 0 ≤ getD (addTo totals k0 (sumValues (getD daily dt []))) k 0 := by
        intro k
        rw [getD_addTo]
        by_cases hk : k = k0
        · rw [if_pos hk]
          have := hI2 k0
          linarith
        · rw [if_neg hk]
          exact hI2 k
      have hJ3 : ∀ e ∈ addVec sums k0 (apps.map (fun a => getD (getD daily dt []) a 0)),
          ∀ x ∈ e.2, 0 ≤ x := by
        intro e he
        rcases mem_addVec_cases sums k0 _ e he with hmem | ⟨v, hv, rfl⟩ | ⟨rfl, _⟩
        · exact hI3 e hmem
        · exact zipWith_add_nonneg v _ (hI3 (k0, v) hv) hn_nn
        · exact hn_nn
      have hJ4 : ∀ e ∈ addVec sums k0 (apps.map (fun a => getD (getD daily dt []) a 0)),
          (Q e.1 ∨ (e.1 = k0 ∧ ∃ b, b ∉ apps ∧ 0 < getD (getD daily dt []) b 0)) →
          e.2.sum < getD (addTo totals k0 (sumValues (getD daily dt []))) e.1 0 := by
        intro e he hq
        rcases mem_addVec_cases sums k0 _ e he with hmem | ⟨v, hv, rfl⟩ | ⟨rfl, hfresh⟩
        · rw [getD_addTo]
          by_cases hek : e.1 = k0
          · rw [if_pos hek]
            rcases hq with hq | ⟨_, b, hbn, hbp⟩
            · have hstrict := hI4 e hmem hq
              rw [hek] at hstrict
              linarith
            · have hTpos : 0 < sumValues (getD daily dt []) :=
                lt_of_lt_of_le hbp (getD_le_sumValues _ b hinner_nn)
              have hle := hI1 e hmem
              rw [hek] at hle
              linarith
          · rw [if_neg hek]
            rcases hq with hq | ⟨hek', _⟩
            · exact hI4 e hmem hq
            · exact absurd hek' hek
        · dsimp only at hq ⊢
          have hv_nn := hI3 (k0, v) hv
          have hzip := sum_zipWith_le v _ hv_nn hn_nn
          rw [getD_addTo, if_pos rfl]
          rcases hq with hq | ⟨_, b, hbn, hbp⟩
          · have hstrict := hI4 (k0, v) hv hq
            dsimp only at hstrict
            linarith
          · have hnlt : (apps.map (fun a => getD (getD daily dt []) a 0)).sum
                < sumValues (getD daily dt []) :=
              sum_map_getD_lt _ apps b hnd hbn hinner_nn hbp
            have hle := hI1 (k0, v) hv
            dsimp only at hle
            linarith
        · dsimp only at hq ⊢
          rw [getD_addTo, if_pos rfl]
          rcases hq with hq | ⟨_, b, hbn, hbp⟩
          · obtain ⟨e', he', hk'⟩ := hI5 k0 hq
            have hpair : (k0, e'.2) ∈ sums := by
              rw [← hk']
              exact he'
            exact absurd ⟨e'.2, hpair⟩ hfresh
          · have hnlt : (apps.map (fun a => getD (getD daily dt []) a 0)).sum
                < sumValues (getD daily dt []) :=
              sum_map_getD_lt _ apps b hnd hbn hinner_nn hbp
            have h2 := hI2 k0
            linarith
      have hJ5 : ∀ k, (Q k ∨ (k = k0 ∧ ∃ b, b ∉ apps ∧
          0 < getD (getD daily dt []) b 0)) →
          ∃ e ∈ addVec sums k0 (apps.map (fun a => getD (getD daily dt []) a 0)),
            e.1 = k := by
        intro k hk
        rcases hk with hq | ⟨hkk, _⟩
        · exact mem_addVec_preserve sums k0 _ k (hI5 k hq)
        · subst hkk
          exact mem_addVec_self sums _ _
      obtain ⟨hK1, hK2, hK3⟩ := ih _ _ out
        (fun k => Q k ∨ (k = k0 ∧ ∃ b, b ∉ apps ∧ 0 < getD (getD daily dt []) b 0))
        h hJ1 hJ2 hJ3 hJ4 hJ5
      refine ⟨hK1, hK2, ?_⟩
      intro e he hq
      apply hK3 e he
      rcases hq with hq | ⟨date, hdmem, hbk, b, hbn, hbp⟩
      · exact Or.inl (Or.inl hq)
      · rcases List.mem_cons.mp hdmem with rfl | hdr
        · rw [hb] at hbk
          injection hbk with hbk'
          exact Or.inl (Or.inr ⟨hbk'.symm, b, hbn, hbp⟩)
        · exact Or.inr ⟨date, hdr, hbk, b, hbn, hbp⟩

theorem pctAll_mem (totals : List (String × ℚ)) :
    ∀ (sums psums : List (String × List ℚ)), pctAll totals sums = some psums →
      ∀ e' ∈ psums, ∃ e ∈ sums, e'.1 = e.1 ∧
        e'.2 = e.2.map (fun x => 100 * x / getD totals e.1 0) ∧
        ¬ getD totals e.1 0 = 0 := by
  intro sums
  induction sums with
  | nil =>
    intro psums h e' he'
    simp only [pctAll, Option.some.injEq] at h
    subst h
    cases he'
  | cons p rest ih =>
    intro psums h e' he'
    obtain ⟨k, v⟩ := p
    by_cases hz : getD totals k 0 = 0
    · simp only [pctAll, if_pos hz] at h
      exact Option.noConfusion h
    · simp only [pctAll, if_neg hz] at h
      cases hp : pctAll totals rest with
      | none => rw [hp] at h; exact Option.noConfusion h
      | some r =>
        rw [hp] at h
        simp only [Option.some.injEq] at h
        subst h
        rcases List.mem_cons.mp he' with rfl | hmem
        · exact ⟨(k, v), List.mem_cons_self _ _, rfl, rfl, hz⟩
        · obtain ⟨e, he, h1, h2, h3⟩ := ih r hp e' hmem
          exact ⟨e, List.mem_cons_of_mem _ he, h1, h2, h3⟩

/-- C9: with non-negative `cpu_percent` inputs, the percentages of one
weekly/monthly bucket summed over the 10 reported columns never exceed
100, and are strictly below 100 whenever an application outside the
selected columns contributed positive load on one of the bucket's dates
(the denominator counts every app of the date, the numerators only the
selected columns). -/
theorem claim9_bucket_percentages (sm : String → Option String)
    (rm : List (RePat × String)) (dc : String) (nd : Int) (today : String)
    (lines : List Line) (d : Data) (g : String) (apps : List String)
    (sums : List (String × List ℚ))
    (hex : extract_and_map_data sm rm dc nd today lines = some d)
    (hcpu : ∀ l ∈ lines, 0 ≤ l.cpu_percentage)
    (_hg : g = "weekly" ∨ g = "monthly")
    (hcs : compute_sums g d dc = some (apps, sums)) :
    ∀ e ∈ sums,
      e.2.sum ≤ 100 ∧
      ((∃ date ∈ d.dates, bucketKey g date = some e.1 ∧
          ∃ b, b ∉ apps ∧ 0 < getD (getD d.daily_cpu_load date []) b 0) →
        e.2.sum < 100) := by
  have hdnn : ∀ de ∈ d.daily_cpu_load, ∀ iv ∈ de.2, 0 ≤ iv.2 := by
    unfold extract_and_map_data at hex
    cases he : extract_lines sm rm dc nd today lines initData with
    | none => rw [he] at hex; exact Option.noConfusion hex
    | some d1 =>
      rw [he] at hex
      have h' : { d1 with dates := sort_dates d1.dates } = d := by simpa using hex
      subst h'
      exact extract_daily_nonneg sm rm dc nd today lines initData d1 he hcpu
        (by intro de hde; cases hde)
  have hakeys : ∀ kv ∈ d.app_cpu_load, ¬ kv.1.1 = dc := by
    unfold extract_and_map_data at hex
    cases he : extract_lines sm rm dc nd today lines initData with
    | none => rw [he] at hex; exact Option.noConfusion hex
    | some d1 =>
      rw [he] at hex
      have h' : { d1 with dates := sort_dates d1.dates } = d := by simpa using hex
      subst h'
      exact extract_app_keys sm rm dc nd today lines initData d1 he
        (by intro kv hkv; cases hkv)
  simp only [compute_sums] at hcs
  split at hcs
  · exact Option.noConfusion hcs
  · rename_i s0 t0 hb
    split at hcs
    · exact Option.noConfusion hcs
    · rename_i ps hp
      simp only [Option.some.injEq, Prod.mk.injEq] at hcs
      obtain ⟨happs, hsums⟩ := hcs
      subst hsums
      subst happs
      have hnd : ((sortedKeysDesc (collapseFirst d.app_cpu_load) 0).take 9
          ++ [dc]).Nodup := apps_nodup d.app_cpu_load dc hakeys
      obtain ⟨hK1, hK2, hK3⟩ := bucketFold_inv g d.daily_cpu_load _ hdnn hnd
        d.dates [] [] (s0, t0) (fun _ => False) hb
        (by intro e he; cases he)
        (by intro k; exact le_refl 0)
        (by intro e he; cases he)
        (by intro e he; cases he)
        (by intro k hk; cases hk)
      intro e' he'
      obtain ⟨e, he, hk1, hk2, hk3⟩ := pctAll_mem t0 s0 ps hp e' he'
      have hT_nn : 0 ≤ getD t0 e.1 0 := hK2 e.1
      have hTpos : 0 < getD t0 e.1 0 := lt_of_le_of_ne hT_nn (Ne.symm hk3)
      have hsum_e : e'.2.sum = 100 * e.2.sum / getD t0 e.1 0 := by
        rw [hk2, sum_map_pct]
      constructor
      · rw [hsum_e, div_le_iff₀ hTpos]
        have := hK1 e he
        linarith
      · intro hout
        rw [hk1] at hout
        rw [hsum_e, div_lt_iff₀ hTpos]
        have := hK3 e he (Or.inr hout)
        linarith

/-- Witness for C9: with one mapped and one unmapped record the single
weekly bucket's two columns sum to exactly 100; with ten mapped apps the
tenth-largest is outside the columns and the monthly bucket's columns sum
to 1080/11 < 100. -/
theorem claim9_witness :
    (([500 / 7, 200 / 7] : List ℚ).sum ≤ 100) ∧ (tenRow.sum < 100) := by
  constructor
  · have hex : extract_and_map_data smFire [] ("unknown") 5 ("2024-01-10")
        [fireLine, mysteryLine] = some pairOut := by decide
    have hcs : compute_sums ("weekly") pairOut ("unknown")
        = some (["Firefox", "unknown"], [("2024-2", [500 / 7, 200 / 7])]) := by decide
    exact ((claim9_bucket_percentages smFire [] ("unknown") 5 ("2024-01-10")
      [fireLine, mysteryLine] pairOut ("weekly") _ _ hex (by decide) (Or.inl rfl) hcs)
      ("2024-2", [500 / 7, 200 / 7]) (by decide)).1
  · have hex : extract_and_map_data smTen [] ("unknown") 5 ("2024-01-10") tenLines
        = some tenOut := by decide
    have hcs : compute_sums ("monthly") tenOut ("unknown")
        = some (["App0", "App1", "App2", "App3", "App4", "App5", "App6", "App7",
            "App8", "unknown"], [("2024-01", tenRow)]) := by decide
    exact ((claim9_bucket_percentages smTen [] ("unknown") 5 ("2024-01-10")
      tenLines tenOut ("monthly") _ _ hex (by decide) (Or.inr rfl) hcs)
      ("2024-01", tenRow) (by decide)).2
      ⟨"2024-01-09", by decide, by decide, "App9", by decide, by decide⟩

end Sonar
